import Mathlib

/-!
Verification development for the docling-service job orchestration subsystem.

Shallow embedding of the repository sources:
  * `services/job_manager.py`   — `JobManager` (job store, queue, worker loop)
  * `services/docling_converter.py` — `DoclingConverter` (validation, heartbeat)
  * `main.py`                   — HTTP handlers
  * `models/job_models.py`      — `JobStatus`, `JobInfo`, response models

Modelling conventions:
  * Python `datetime` values are modelled as `Int` (seconds); `timedelta(hours=1)`
    becomes the constant `3600`.
  * Python `float` progress values are modelled as `ℚ`.
  * The in-memory dict `self.jobs: Dict[str, JobInfo]` is modelled as an
    association list `List (Nat × JobInfo)`; `str(uuid.uuid4())` key generation
    is modelled by a fresh-natural counter (keys are opaque and unique, which is
    the only property the code relies on).
  * In-place mutation of a `JobInfo` object becomes a functional record update
    of the entry with the matching key.
-/

/-- `JobStatus` from `models/job_models.py` (a `str` Enum). -/
inductive JobStatus where
  | queued
  | processing
  | completed
  | failed
  | cancelled
deriving DecidableEq, Repr

/-- `JobInfo` from `models/job_models.py`.  Field-for-field translation; the
`project_id` keyword passed by `JobManager.create_job` is not a declared field
of the pydantic model and is therefore dropped (pydantic ignores extra kwargs),
so it does not appear here. -/
structure JobInfo where
  job_id : Nat
  status : JobStatus
  progress : ℚ
  current_page : Option Int
  total_pages : Option Int
  message : String
  created_at : Int
  started_at : Option Int
  completed_at : Option Int
  error : Option String
  filename : Option String
  output_format : Option String
  output_content : Option String
deriving DecidableEq, Repr

/-- The job store `self.jobs : Dict[str, JobInfo]`, as an association list. -/
abbrev Jobs : Type := List (Nat × JobInfo)

/-- `self.jobs.get(job_id)`: first entry with the given key. -/
def jget : Jobs → Nat → Option JobInfo
  | [], _ => none
  | (k, j) :: rest, id => if k = id then some j else jget rest id

/-- Mutate (in place) the record stored under a key: functional update of the
first entry with that key; identity when the key is absent. -/
def jupdate (f : JobInfo → JobInfo) : Jobs → Nat → Jobs
  | [], _ => []
  | (k, j) :: rest, id =>
      if k = id then (k, f j) :: rest else (k, j) :: jupdate f rest id

/-- `JobManager.create_job` (job_manager.py lines 54-86): builds a fresh
`JobInfo` in the `queued` state.  `job_id` stands for `str(uuid.uuid4())` and
`now` for `datetime.utcnow()` (the pydantic `created_at` default factory). -/
def newJobInfo (job_id : Nat) (filename output_format : String) (now : Int) : JobInfo :=
  { job_id := job_id
    status := JobStatus.queued
    progress := 0
    current_page := none
    total_pages := none
    message := "Job queued for processing"
    created_at := now
    started_at := none
    completed_at := none
    error := none
    filename := some filename
    output_format := some output_format
    output_content := none }

/-- `self.jobs[job_id] = job` for a fresh key (dict insertion). -/
def create_job (jobs : Jobs) (job_id : Nat) (filename output_format : String)
    (now : Int) : Jobs :=
  jobs ++ [(job_id, newJobInfo job_id filename output_format now)]

/-- The record mutation performed by `JobManager.update_progress`
(job_manager.py lines 134-142) on the found record.  Python truthiness is
modelled exactly: `current_page is not None` / `total_pages is not None` accept
any integer, while `if message:` rejects both `None` and the empty string. -/
def progressFields (progress : ℚ) (current_page total_pages : Option Int)
    (message : Option String) (job : JobInfo) : JobInfo :=
  let j1 := { job with progress := min (max progress 0) 1 }
  let j2 := match current_page with
    | some cp => { j1 with current_page := some cp }
    | none => j1
  let j3 := match total_pages with
    | some tp => { j2 with total_pages := some tp }
    | none => j2
  match message with
  | some m => if m = "" then j3 else { j3 with message := m }
  | none => j3

/-- `JobManager.update_progress` (job_manager.py lines 116-144):
`job = self.jobs.get(job_id); if job: ...` — a silent no-op when the id is
absent. -/
def update_progress (jobs : Jobs) (job_id : Nat) (progress : ℚ)
    (current_page total_pages : Option Int) (message : Option String) : Jobs :=
  match jget jobs job_id with
  | none => jobs
  | some _ => jupdate (progressFields progress current_page total_pages message) jobs job_id

/-- The mutation performed by `JobManager.cancel_job` on a cancellable record
(job_manager.py lines 158-160). -/
def cancelFields (now : Int) (j : JobInfo) : JobInfo :=
  { j with status := JobStatus.cancelled
           message := "Job cancelled by user"
           completed_at := some now }

/-- `JobManager.cancel_job` (job_manager.py lines 146-163).  Returns the Python
return value together with the resulting store. -/
def cancel_job (jobs : Jobs) (job_id : Nat) (now : Int) : Bool × Jobs :=
  match jget jobs job_id with
  | some job =>
      if job.status = JobStatus.queued ∨ job.status = JobStatus.processing then
        (true, jupdate (cancelFields now) jobs job_id)
      else (false, jobs)
  | none => (false, jobs)

/-- `job.status in (COMPLETED, FAILED, CANCELLED)` — the terminal statuses
tested by `cleanup_old_jobs`. -/
def isTerminal : JobStatus → Bool
  | JobStatus.completed => true
  | JobStatus.failed => true
  | JobStatus.cancelled => true
  | _ => false

/-- The removal test of `JobManager.cleanup_old_jobs` (job_manager.py lines
168-173): terminal status, `completed_at` set (a `datetime` is always truthy,
so `job.completed_at and ...` is a `None` test), and `completed_at < cutoff`
where `cutoff = now - cleanup_age`. -/
def removable (now age : Int) (j : JobInfo) : Bool :=
  isTerminal j.status &&
    (match j.completed_at with
     | some c => decide (c < now - age)
     | none => false)

/-- `JobManager.cleanup_old_jobs` (job_manager.py lines 165-177): delete every
record matching `removable`, keep the rest. -/
def cleanup_old_jobs (jobs : Jobs) (now age : Int) : Jobs :=
  List.filter (fun p => ! removable now age p.2) jobs

/-- The default retention window: `cleanup_age_hours = 1` (job_manager.py line
23), i.e. `timedelta(hours=1)` in seconds. -/
def defaultCleanupAge : Int := 3600

/-- `JobManager.get_job` (job_manager.py lines 104-114): pure dict read. -/
def get_job (jobs : Jobs) (job_id : Nat) : Option JobInfo :=
  jget jobs job_id

-- ## HTTP result endpoint (main.py)

/-- `JobResultResponse` from `models/job_models.py`; unset pydantic fields
default to `None`. -/
structure JobResultResponse where
  job_id : Nat
  success : Bool
  output_content : Option String
  page_count : Option Int
  error : Option String
deriving DecidableEq, Repr

/-- Outcome of `GET /jobs/{job_id}/result`: the two `HTTPException` branches
(404, 425) or a `JobResultResponse` body. -/
inductive ResultResp where
  | notFound
  | tooEarly
  | result (r : JobResultResponse)
deriving DecidableEq, Repr

/-- `get_job_result` (main.py lines 208-251).  The `str` enum `JobStatus`
compares equal to its string value, so `job.status == "processing"` is a
status comparison. -/
def get_job_result (jobs : Jobs) (job_id : Nat) : ResultResp :=
  match jget jobs job_id with
  | none => ResultResp.notFound
  | some job =>
      if job.status = JobStatus.processing ∨ job.status = JobStatus.queued then
        ResultResp.tooEarly
      else if job.status = JobStatus.failed then
        ResultResp.result
          { job_id := job_id, success := false, output_content := none,
            page_count := none, error := job.error }
      else if job.status = JobStatus.cancelled then
        ResultResp.result
          { job_id := job_id, success := false, output_content := none,
            page_count := none, error := some "Job was cancelled" }
      else
        ResultResp.result
          { job_id := job_id, success := true, output_content := job.output_content,
            page_count := job.total_pages, error := none }

-- ## File validation (docling_converter.py) and the async-convert handler (main.py)

/-- Index of the last dot in a character list (CPython `str.rfind`-style). -/
def rfindDot : List Char → Option Nat
  | [] => none
  | c :: rest =>
      match rfindDot rest with
      | some i => some (i + 1)
      | none => if c = '.' then some 0 else none

/-- The final path component (characters after the last slash). -/
def lastComponent (cs : List Char) : List Char :=
  (cs.reverse.takeWhile (fun c => c != '/')).reverse

/-- `pathlib.PurePath.suffix`: the extension `name[i:]` when
`0 < i < len(name) - 1` for `i = name.rfind(".")`, else the empty string
(a leading dot or a trailing dot yields no suffix). -/
def pathSuffix (s : String) : String :=
  let name := lastComponent s.data
  match rfindDot name with
  | some i => if 0 < i ∧ i + 1 < name.length then String.mk (name.drop i) else ""
  | none => ""

/-- `DoclingConverter.supported_extensions` (docling_converter.py line 26). -/
def supported_extensions : List String := [".pdf", ".docx", ".doc"]

/-- ASCII lowercasing of one character (`str.lower` restricted to ASCII, which
is all the extension allow-list can match). -/
def lowerChar (c : Char) : Char :=
  if 'A' ≤ c ∧ c ≤ 'Z' then Char.ofNat (c.toNat + 32) else c

/-- `str.lower` on ASCII strings. -/
def strLower (s : String) : String :=
  String.mk (s.data.map lowerChar)

/-- `DoclingConverter.validate_file` (docling_converter.py lines 73-84):
`Path(filename).suffix.lower() in self.supported_extensions`. -/
def validate_file (filename : String) : Bool :=
  supported_extensions.contains (strLower (pathSuffix filename))

/-- Python exceptions that can escape the `try` block of
`convert_document_async` (main.py lines 124-165).  `fastapi.HTTPException`
derives from `starlette.exceptions.HTTPException`, which derives from
`Exception`, so it is caught by a bare `except Exception`. -/
inductive PyExc where
  | httpException (status : Nat) (detail : String)
  | valueError (msg : String)
  | typeError (msg : String)
deriving DecidableEq, Repr

/-- `str(e)` for the exceptions above (`starlette.HTTPException.__str__` is
`f"{status_code}: {detail}"`; the mandatory quote characters of CPython
TypeError texts are omitted, no theorem below inspects these strings). -/
def pyStr : PyExc → String
  | PyExc.httpException s d => toString s ++ ": " ++ d
  | PyExc.valueError m => m
  | PyExc.typeError m => m

/-- Parameters of `JobManager.create_job` without a default value, `self`
excluded (job_manager.py lines 54-59): `project_id` and `filename`
(`output_format` defaults to `"docbook"`). -/
def createJobRequiredParams : List String := ["project_id", "filename"]

/-- The keyword arguments that `convert_document_async` actually passes to
`create_job` (main.py lines 145-148): only `filename` and `output_format`. -/
def convertAsyncCreateJobKwargs : List String := ["filename", "output_format"]

/-- CPython call binding: the required parameters not supplied by the given
keyword arguments (each missing one raises `TypeError` at the call site). -/
def missingRequired (required provided : List String) : List String :=
  required.filter (fun r => ! provided.contains r)

/-- The `try` block of `convert_document_async` (main.py lines 124-164):
validation, file save (pure I/O, modelled as succeeding), then the
`create_job` call with the kwargs listed above.  A call with a missing
required positional argument raises `TypeError` before `create_job`
executes, so neither job creation nor enqueueing is reached. -/
def tryBody (filename : String) : Except PyExc String :=
  if validate_file filename = false then
    Except.error (PyExc.httpException 400
      "Unsupported file type. Supported extensions: .pdf, .docx, .doc")
  else
    match missingRequired createJobRequiredParams convertAsyncCreateJobKwargs with
    | m :: _ =>
        Except.error (PyExc.typeError
          ("create_job() missing 1 required positional argument: " ++ m))
    | [] => Except.ok ("Conversion job started for " ++ filename)

/-- HTTP outcome of `POST /convert-async`: a `JobStartResponse` message or an
`HTTPException` with a status code. -/
inductive HandlerResp where
  | ok (message : String)
  | err (status : Nat) (detail : String)
deriving DecidableEq, Repr

/-- `convert_document_async` (main.py lines 98-175): run the `try` block, then
the handlers in order — `except ValueError` gives 400, and the bare
`except Exception` (which also catches the `HTTPException(400)` raised inside
the `try` block) gives 500. -/
def convert_document_async (filename output_format : String) : HandlerResp :=
  match tryBody filename with
  | Except.ok msg => HandlerResp.ok msg
  | Except.error (PyExc.valueError m) => HandlerResp.err 400 m
  | Except.error e => HandlerResp.err 500 ("Failed to start conversion: " ++ pyStr e)

/-- The HTTP status of a handler outcome (`none` for a 200 body). -/
def respStatus : HandlerResp → Option Nat
  | HandlerResp.ok _ => none
  | HandlerResp.err s _ => some s

-- ## The worker-loop transition system (job_manager.py lines 179-245)

/-- The observable behaviour of one `conversion_func`: either it resolves to
the tuple `(output_file, page_count, error)` or it raises with message
`msg`. -/
inductive TaskOutcome where
  | ok (output_file : Option String) (page_count : Option Int) (error : Option String)
  | raise (msg : String)
deriving DecidableEq, Repr

/-- What the single worker task is doing: waiting on the queue, or awaiting
`conversion_func(job_id, progress_callback)` for one dequeued job. -/
inductive WorkerPhase where
  | idle
  | running (job_id : Nat) (task : TaskOutcome)
deriving DecidableEq, Repr

/-- Global state of the job subsystem.  `enq`, `deqd` and `fin` are ghost
histories (ids in submission order, dequeue order, and worker-terminalization
order) used to state ordering properties; they do not influence behaviour. -/
structure SysState where
  jobs : Jobs
  queue : List (Nat × TaskOutcome)
  worker : WorkerPhase
  nextId : Nat
  now : Int
  enq : List Nat
  deqd : List Nat
  fin : List Nat
deriving DecidableEq, Repr

/-- `f"{page_count}"` for an `Optional[int]`. -/
def optIntStr : Option Int → String
  | some n => toString n
  | none => "None"

/-- The success branch of the worker loop (job_manager.py lines 229-234):
`completed`, `progress = 1.0`, `total_pages = page_count`, completion message.
Note that the loop never assigns `job.output_content` and discards the
`output_file` component of the task result. -/
def completeJob (page_count : Option Int) (j : JobInfo) : JobInfo :=
  { j with status := JobStatus.completed
           progress := 1
           total_pages := page_count
           message := "Conversion completed (" ++ optIntStr page_count ++ " pages)" }

/-- The failure assignments shared by the error branch (lines 224-228) and the
exception branch (lines 236-241) of the worker loop. -/
def failJob (e : String) (j : JobInfo) : JobInfo :=
  { j with status := JobStatus.failed
           error := some e
           message := "Conversion failed: " ++ e }

/-- Step 6 of the worker loop (job_manager.py lines 219-241), applied to the
record of the job being processed.  `if error:` is a Python truthiness test,
so `None` and `""` both select the success branch. -/
def finishJob (now : Int) (task : TaskOutcome) (j : JobInfo) : JobInfo :=
  match task with
  | TaskOutcome.ok _ page_count error =>
      let j1 := { j with completed_at := some now }
      match error with
      | some e => if e = "" then completeJob page_count j1 else failJob e j1
      | none => completeJob page_count j1
  | TaskOutcome.raise m => { failJob m j with completed_at := some now }

/-- The `processing` transition (job_manager.py lines 207-210). -/
def startJob (now : Int) (j : JobInfo) : JobInfo :=
  { j with status := JobStatus.processing
           started_at := some now
           message := "Processing started" }

/-- Events of the job subsystem.  `submit` is `create_job` followed by
`enqueue_job` as performed by a request handler; `deq` and `finish` are the
two halves of one worker-loop iteration (the gap between them is the awaited
conversion, during which the other events may interleave); `cancel` and
`progress` are the HTTP-cancellation and progress-reporter entry points;
`cleanup` is the between-items `cleanup_old_jobs()` call; `tick` advances the
clock. -/
inductive JobAction where
  | submit (project_id filename output_format : String) (task : TaskOutcome)
  | deq
  | finish
  | cancel (job_id : Nat)
  | progress (job_id : Nat) (p : ℚ) (current_page total_pages : Option Int)
      (message : Option String)
  | cleanup
  | tick
deriving DecidableEq, Repr

/-- Effect of `submit`: a fresh id (modelling `uuid4`), `create_job`, then
`enqueue_job` (`self._queue.put`) of the task. -/
def applySubmit (s : SysState) (filename output_format : String)
    (task : TaskOutcome) : SysState :=
  { s with jobs := create_job s.jobs s.nextId filename output_format s.now
           queue := s.queue ++ [(s.nextId, task)]
           nextId := s.nextId + 1
           enq := s.enq ++ [s.nextId] }

/-- Steps 2-4 of the worker loop (job_manager.py lines 189-211): take the head
of the queue; discard it when the record is missing or already `cancelled`;
otherwise mark it `processing` and start the conversion. -/
def applyDeq (s : SysState) : SysState :=
  match s.worker with
  | WorkerPhase.running _ _ => s
  | WorkerPhase.idle =>
      match s.queue with
      | [] => s
      | (id, task) :: rest =>
          match jget s.jobs id with
          | none => { s with queue := rest, deqd := s.deqd ++ [id] }
          | some j =>
              if j.status = JobStatus.cancelled then
                { s with queue := rest, deqd := s.deqd ++ [id] }
              else
                { s with queue := rest
                         deqd := s.deqd ++ [id]
                         jobs := jupdate (startJob s.now) s.jobs id
                         worker := WorkerPhase.running id task }

/-- Step 6 of the worker loop: the awaited conversion resolves and the job is
terminalized (unconditionally — the loop does not re-check for
cancellation). -/
def applyFinish (s : SysState) : SysState :=
  match s.worker with
  | WorkerPhase.idle => s
  | WorkerPhase.running id task =>
      { s with jobs := jupdate (finishJob s.now task) s.jobs id
               worker := WorkerPhase.idle
               fin := s.fin ++ [id] }

/-- One event of the job subsystem.  `cleanup` only fires while the worker is
idle: `cleanup_old_jobs()` is invoked solely from the worker loop between
items, never while a conversion is awaited. -/
def applyAction (s : SysState) : JobAction → SysState
  | JobAction.submit _ filename output_format task =>
      applySubmit s filename output_format task
  | JobAction.deq => applyDeq s
  | JobAction.finish => applyFinish s
  | JobAction.cancel id => { s with jobs := (cancel_job s.jobs id s.now).2 }
  | JobAction.progress id p cp tp m =>
      { s with jobs := update_progress s.jobs id p cp tp m }
  | JobAction.cleanup =>
      match s.worker with
      | WorkerPhase.idle =>
          { s with jobs := cleanup_old_jobs s.jobs s.now defaultCleanupAge }
      | _ => s
  | JobAction.tick => { s with now := s.now + 1 }

/-- Run a trace of events. -/
def runTrace (s : SysState) (tr : List JobAction) : SysState :=
  tr.foldl applyAction s

/-- The state at service startup: empty store, empty queue, idle worker. -/
def initState : SysState :=
  { jobs := [], queue := [], worker := WorkerPhase.idle, nextId := 0, now := 0,
    enq := [], deqd := [], fin := [] }

/-- Whether an event is a cancellation request. -/
def JobAction.isCancel : JobAction → Bool
  | JobAction.cancel _ => true
  | _ => false

/-- Traces in which no cancellation request arrives. -/
def cancelFree (tr : List JobAction) : Bool :=
  tr.all (fun a => ! a.isCancel)

/-- The id being processed, as a (zero- or one-element) list. -/
def workerIds : WorkerPhase → List Nat
  | WorkerPhase.idle => []
  | WorkerPhase.running id _ => [id]

-- ## Heartbeat monitor (docling_converter.py lines 338-412)

/-- One invocation of the progress reporter performed by the heartbeat thread
(`run_coroutine_threadsafe(progress_callback(0.20, 0, 0, ...))`).
`afterReturn` is a ghost flag: whether the monitored blocking call had already
returned when the invocation was made. -/
structure HBSend where
  afterReturn : Bool
  frac : ℚ
  cur : Int
  tot : Int
  msg : String
deriving DecidableEq, Repr

/-- Position of the heartbeat thread inside `send_heartbeat`:
about to evaluate `while heartbeat_active.is_set()`; inside `time.sleep(30)`;
about to evaluate the inner `if heartbeat_active.is_set()`; past a successful
inner check but before `run_coroutine_threadsafe` executes; or exited. -/
inductive HBPhase where
  | loopCheck
  | sleeping
  | innerCheck
  | sendPending
  | exited
deriving DecidableEq, Repr

/-- Joint state of `heartbeat_active` (the `threading.Event`), the heartbeat
thread, and the awaiting coroutine.  `callDone` records whether
`await loop.run_in_executor(...)` has finished (in which case the `finally`
block has run); `sends` logs every reporter invocation by the thread. -/
structure HBState where
  flag : Bool
  phase : HBPhase
  elapsed : Nat
  callDone : Bool
  sends : List HBSend
deriving DecidableEq, Repr

/-- Interleaving events: the four thread steps, and the return of the blocking
call (successfully or by raising — `callFailed` — which runs the `finally`
either way). -/
inductive HBAction where
  | tLoopCheck
  | tWake
  | tInner
  | tSend
  | mReturn (callFailed : Bool)
deriving DecidableEq, Repr

/-- `f"Processing PDF pages... ({elapsed}s elapsed)"`. -/
def hbMsg (elapsed : Nat) : String :=
  "Processing PDF pages... (" ++ toString elapsed ++ "s elapsed)"

/-- One interleaving step.  Each `time.sleep(30)` is one abstract `tWake`
tick worth 30 seconds of real time; `elapsed += 30` happens on a successful
inner check, before the send (source lines 356-366).  The `finally` block
(line 378-380) clears the flag exactly once, whether the executor call
returned or raised. -/
def applyHB (s : HBState) : HBAction → HBState
  | HBAction.tLoopCheck =>
      match s.phase with
      | HBPhase.loopCheck =>
          if s.flag then { s with phase := HBPhase.sleeping }
          else { s with phase := HBPhase.exited }
      | _ => s
  | HBAction.tWake =>
      match s.phase with
      | HBPhase.sleeping => { s with phase := HBPhase.innerCheck }
      | _ => s
  | HBAction.tInner =>
      match s.phase with
      | HBPhase.innerCheck =>
          if s.flag then
            { s with elapsed := s.elapsed + 30, phase := HBPhase.sendPending }
          else { s with phase := HBPhase.loopCheck }
      | _ => s
  | HBAction.tSend =>
      match s.phase with
      | HBPhase.sendPending =>
          { s with phase := HBPhase.loopCheck
                   sends := s.sends ++
                     [{ afterReturn := s.callDone, frac := 1/5, cur := 0,
                        tot := 0, msg := hbMsg s.elapsed }] }
      | _ => s
  | HBAction.mReturn _ =>
      if s.callDone then s else { s with callDone := true, flag := false }

/-- Run an interleaving of thread and caller events. -/
def runHB (s : HBState) (tr : List HBAction) : HBState :=
  tr.foldl applyHB s

/-- The state immediately before `await loop.run_in_executor(...)`:
`heartbeat_active.set()` has run and `heartbeat_thread.start()` has just been
called (source lines 352-369), i.e. the monitor starts immediately before the
blocking call. -/
def initHB : HBState :=
  { flag := true, phase := HBPhase.loopCheck, elapsed := 0, callDone := false,
    sends := [] }

/-- A concrete cancellation-free execution: two jobs submitted, then drained
by two worker iterations. -/
def c8Trace : List JobAction :=
  [JobAction.submit "p" "a.pdf" "html" (TaskOutcome.ok (some "o1") (some 1) none),
   JobAction.submit "p" "b.pdf" "html" (TaskOutcome.ok (some "o2") (some 2) none),
   JobAction.deq, JobAction.finish, JobAction.deq, JobAction.finish]

/-- Well-formedness of the heartbeat log: `elapsed` is always a multiple of
30, is non-zero whenever a send is pending, and every reporter invocation made
by the heartbeat thread carried the same coarse fraction `0.20`, unit counts
`(0, 0)`, and an elapsed-time message for a positive multiple of 30
seconds. -/
def hbWF (s : HBState) : Prop :=
  (∃ n : Nat, s.elapsed = 30 * n) ∧
  (s.phase = HBPhase.sendPending → s.elapsed ≠ 0) ∧
  ∀ e ∈ s.sends, e.frac = 1/5 ∧ e.cur = 0 ∧ e.tot = 0 ∧
    ∃ k : Nat, k ≠ 0 ∧ e.msg = hbMsg (30 * k)

-- ## Invariants of the worker-loop transition system

/-- Invariants holding in every reachable state of the job subsystem:
fresh-key discipline for the store, the queue and the ghost histories; the
FIFO law `enq = deqd ++ queue`; and single-worker ownership — every
`processing` record belongs to the job the worker is currently running, the
worker's current job exists with status `processing` or `cancelled`, and was
dequeued. -/
structure InvG (s : SysState) : Prop where
  jobsFresh : ∀ i, s.nextId ≤ i → jget s.jobs i = none
  jobsNodup : (s.jobs.map Prod.fst).Nodup
  queueLt : ∀ i ∈ s.queue.map Prod.fst, i < s.nextId
  enqLt : ∀ i ∈ s.enq, i < s.nextId
  enqNodup : s.enq.Nodup
  fifo : s.enq = s.deqd ++ s.queue.map Prod.fst
  procOwner : ∀ i j, jget s.jobs i = some j →
    j.status = JobStatus.processing → ∃ t, s.worker = WorkerPhase.running i t
  runJob : ∀ i t, s.worker = WorkerPhase.running i t →
    ∃ j, jget s.jobs i = some j ∧
      (j.status = JobStatus.processing ∨ j.status = JobStatus.cancelled)
  runDeqd : ∀ i t, s.worker = WorkerPhase.running i t → i ∈ s.deqd

/-- Additional invariants of cancellation-free executions: no record is ever
`cancelled`, every enqueued id denotes a live `queued` record, the dequeue
history splits into worker-terminalized jobs plus the one being processed,
and every worker-terminalized job still present is `completed` or `failed`. -/
structure InvNC (s : SysState) : Prop where
  noCancelled : ∀ i j, jget s.jobs i = some j → j.status ≠ JobStatus.cancelled
  queuedReady : ∀ p ∈ s.queue, ∃ j, jget s.jobs p.1 = some j ∧
    j.status = JobStatus.queued
  deqdFin : s.deqd = s.fin ++ workerIds s.worker
  finDone : ∀ i ∈ s.fin, ∀ j, jget s.jobs i = some j →
    (j.status = JobStatus.completed ∨ j.status = JobStatus.failed)

-- ## Basic lemmas about the association-list store

theorem jget_jupdate_self (f : JobInfo → JobInfo) (l : Jobs) (k : Nat) :
    jget (jupdate f l k) k = (jget l k).map f := by
  induction l with
  | nil => rfl
  | cons p rest ih =>
      obtain ⟨k0, j0⟩ := p
      by_cases h : k0 = k <;> simp [jget, jupdate, h, ih]

theorem jget_jupdate_ne (f : JobInfo → JobInfo) (l : Jobs) (k i : Nat)
    (h : i ≠ k) : jget (jupdate f l k) i = jget l i := by
  induction l with
  | nil => rfl
  | cons p rest ih =>
      obtain ⟨k0, j0⟩ := p
      by_cases h0 : k0 = k
      · subst h0
        simp [jget, jupdate, Ne.symm h]
      · by_cases h1 : k0 = i <;> simp [jget, jupdate, h0, h1, ih, h]

theorem jupdate_keys (f : JobInfo → JobInfo) (l : Jobs) (k : Nat) :
    (jupdate f l k).map Prod.fst = l.map Prod.fst := by
  induction l with
  | nil => rfl
  | cons p rest ih =>
      obtain ⟨k0, j0⟩ := p
      by_cases h : k0 = k <;> simp [jupdate, h, ih]

theorem jget_eq_none_iff (l : Jobs) (i : Nat) :
    jget l i = none ↔ i ∉ l.map Prod.fst := by
  induction l with
  | nil => simp [jget]
  | cons p rest ih =>
      obtain ⟨k0, j0⟩ := p
      by_cases h : k0 = i
      · simp [jget, h]
      · simp only [jget, if_neg h, ih, List.map_cons, List.mem_cons]
        constructor
        · intro h1
          rintro (h2 | h2)
          · exact h h2.symm
          · exact h1 h2
        · intro h1 h2
          exact h1 (Or.inr h2)

theorem jget_of_not_mem_keys (l : Jobs) (i : Nat)
    (h : i ∉ l.map Prod.fst) : jget l i = none :=
  (jget_eq_none_iff l i).mpr h

theorem jupdate_of_jget_none (f : JobInfo → JobInfo) (l : Jobs) (k : Nat)
    (h : jget l k = none) : jupdate f l k = l := by
  induction l with
  | nil => rfl
  | cons p rest ih =>
      obtain ⟨k0, j0⟩ := p
      by_cases h0 : k0 = k
      · simp [jget, h0] at h
      · simp [jget, h0] at h
        simp [jupdate, h0, ih h]

theorem jget_mem (l : Jobs) (i : Nat) (j : JobInfo)
    (h : jget l i = some j) : (i, j) ∈ l := by
  induction l with
  | nil => simp [jget] at h
  | cons p rest ih =>
      obtain ⟨k0, j0⟩ := p
      by_cases h0 : k0 = i
      · subst h0
        simp [jget] at h
        simp [h]
      · simp [jget, h0] at h
        exact List.mem_cons_of_mem _ (ih h)

theorem mem_jget_of_nodup (l : Jobs) (i : Nat) (j : JobInfo)
    (hnd : (l.map Prod.fst).Nodup) (h : (i, j) ∈ l) : jget l i = some j := by
  induction l with
  | nil => simp at h
  | cons p rest ih =>
      obtain ⟨k0, j0⟩ := p
      rw [List.map_cons, List.nodup_cons] at hnd
      rcases List.mem_cons.mp h with h1 | h1
      · rw [Prod.mk.injEq] at h1
        obtain ⟨h1a, h1b⟩ := h1
        subst h1a
        subst h1b
        simp [jget]
      · have hik : k0 ≠ i := by
          intro he
          subst he
          exact hnd.1 (List.mem_map.mpr ⟨(k0, j), h1, rfl⟩)
        simp [jget, hik, ih hnd.2 h1]

theorem mem_jupdate (f : JobInfo → JobInfo) (l : Jobs) (k : Nat)
    (p : Nat × JobInfo) (h : p ∈ jupdate f l k) :
    p ∈ l ∨ ∃ j, jget l k = some j ∧ p = (k, f j) := by
  induction l with
  | nil => simp [jupdate] at h
  | cons q rest ih =>
      obtain ⟨k0, j0⟩ := q
      by_cases h0 : k0 = k
      · subst h0
        simp [jupdate] at h
        rcases h with h | h
        · exact Or.inr ⟨j0, by simp [jget], by simp [h]⟩
        · exact Or.inl (List.mem_cons_of_mem _ h)
      · simp [jupdate, h0] at h
        rcases h with h | h
        · exact Or.inl (by simp [h])
        · rcases ih h with h1 | ⟨j, hj, hp⟩
          · exact Or.inl (List.mem_cons_of_mem _ h1)
          · exact Or.inr ⟨j, by simp [jget, h0, hj], hp⟩

theorem jget_append (l m : Jobs) (i : Nat) :
    jget (l ++ m) i = match jget l i with
      | some j => some j
      | none => jget m i := by
  induction l with
  | nil => simp [jget]
  | cons p rest ih =>
      obtain ⟨k0, j0⟩ := p
      by_cases h : k0 = i <;> simp [jget, h, ih]

-- ## Facts about the progress-update mutation

theorem update_progress_of_jget_none (jobs : Jobs) (job_id : Nat) (p : ℚ)
    (cp tp : Option Int) (m : Option String) (h : jget jobs job_id = none) :
    update_progress jobs job_id p cp tp m = jobs := by
  unfold update_progress
  rw [h]

theorem update_progress_of_jget_some (jobs : Jobs) (job_id : Nat) (p : ℚ)
    (cp tp : Option Int) (m : Option String) (j : JobInfo)
    (h : jget jobs job_id = some j) :
    update_progress jobs job_id p cp tp m =
      jupdate (progressFields p cp tp m) jobs job_id := by
  unfold update_progress
  rw [h]

theorem progressFields_progress (p : ℚ) (cp tp : Option Int) (m : Option String)
    (j : JobInfo) :
    (progressFields p cp tp m j).progress = min (max p 0) 1 := by
  unfold progressFields
  cases cp <;> cases tp <;> cases m <;> simp <;> split <;> rfl

theorem progressFields_frames (p : ℚ) (cp tp : Option Int) (m : Option String)
    (j : JobInfo) :
    (progressFields p cp tp m j).status = j.status
  ∧ (progressFields p cp tp m j).created_at = j.created_at
  ∧ (progressFields p cp tp m j).started_at = j.started_at
  ∧ (progressFields p cp tp m j).completed_at = j.completed_at
  ∧ (progressFields p cp tp m j).error = j.error
  ∧ (progressFields p cp tp m j).output_content = j.output_content
  ∧ (progressFields p cp tp m j).job_id = j.job_id
  ∧ (progressFields p cp tp m j).filename = j.filename
  ∧ (progressFields p cp tp m j).output_format = j.output_format := by
  unfold progressFields
  cases cp <;> cases tp <;> cases m <;> simp <;> split <;> simp

-- ## Claim theorems: the pure JobManager operations

/-- Claim C4: every fraction submitted through `update_progress` — the single
mutation path for `progress` — is stored clamped to `[0.0, 1.0]`: the stored
value is `min (max p 0) 1`, so any `p ≤ 0` (such as -0.3) is stored as `0` and
any `p ≥ 1` (such as 1.7) is stored as `1`. -/
theorem update_progress_clamps (jobs : Jobs) (job_id : Nat) (p : ℚ)
    (cp tp : Option Int) (m : Option String) (j : JobInfo)
    (h : jget jobs job_id = some j) :
    ∃ j2, jget (update_progress jobs job_id p cp tp m) job_id = some j2
      ∧ j2.progress = min (max p 0) 1
      ∧ 0 ≤ j2.progress ∧ j2.progress ≤ 1
      ∧ (p ≤ 0 → j2.progress = 0)
      ∧ (1 ≤ p → j2.progress = 1) := by
  refine ⟨progressFields p cp tp m j, ?_, ?_, ?_, ?_, ?_, ?_⟩
  · rw [update_progress_of_jget_some jobs job_id p cp tp m j h,
        jget_jupdate_self, h]
    rfl
  · exact progressFields_progress p cp tp m j
  · rw [progressFields_progress]
    exact le_min (le_max_right p 0) (by norm_num)
  · rw [progressFields_progress]
    exact min_le_right _ _
  · intro hp
    rw [progressFields_progress, max_eq_right hp]
    exact min_eq_left (by norm_num)
  · intro hp
    rw [progressFields_progress]
    have : (1:ℚ) ≤ max p 0 := le_trans hp (le_max_left p 0)
    exact min_eq_right this

/-- Witness for C4 at the claim's concrete fractions: on a store holding one
job, submitting -0.3 stores progress 0 and submitting 1.7 stores progress 1. -/
theorem update_progress_clamps_witness :
    (∃ j2, jget (update_progress [(0, newJobInfo 0 "a.pdf" "html" 0)] 0
        (-3/10) none none none) 0 = some j2 ∧ j2.progress = 0)
  ∧ (∃ j2, jget (update_progress [(0, newJobInfo 0 "a.pdf" "html" 0)] 0
        (17/10) none none none) 0 = some j2 ∧ j2.progress = 1) := by
  constructor
  · obtain ⟨j2, hg, _, _, _, h0, _⟩ :=
      update_progress_clamps [(0, newJobInfo 0 "a.pdf" "html" 0)] 0
        (-3/10) none none none (newJobInfo 0 "a.pdf" "html" 0) (by rfl)
    exact ⟨j2, hg, h0 (by norm_num)⟩
  · obtain ⟨j2, hg, _, _, _, _, h1⟩ :=
      update_progress_clamps [(0, newJobInfo 0 "a.pdf" "html" 0)] 0
        (17/10) none none none (newJobInfo 0 "a.pdf" "html" 0) (by rfl)
    exact ⟨j2, hg, h1 (by norm_num)⟩

/-- Claim C5: `cancel_job` returns `True` exactly when the job exists with
status `queued` or `processing`, in which case it sets the status to
`cancelled`, stamps `completed_at`, and sets the informational message, leaving
every other record untouched; when the job is absent or already terminal it
returns `False` and the store — every record and its status — is unchanged. -/
theorem cancel_job_spec (jobs : Jobs) (job_id : Nat) (now : Int) :
    ((cancel_job jobs job_id now).1 = true ↔
       ∃ j, jget jobs job_id = some j ∧
         (j.status = JobStatus.queued ∨ j.status = JobStatus.processing))
  ∧ (∀ j, jget jobs job_id = some j →
       (j.status = JobStatus.queued ∨ j.status = JobStatus.processing) →
       jget (cancel_job jobs job_id now).2 job_id =
         some { j with status := JobStatus.cancelled
                       message := "Job cancelled by user"
                       completed_at := some now }
     ∧ ∀ k, k ≠ job_id → jget (cancel_job jobs job_id now).2 k = jget jobs k)
  ∧ ((cancel_job jobs job_id now).1 = false →
       (cancel_job jobs job_id now).2 = jobs) := by
  cases hj : jget jobs job_id with
  | none =>
      have he : cancel_job jobs job_id now = (false, jobs) := by
        unfold cancel_job
        rw [hj]
      rw [he]
      exact ⟨by simp, fun j hj0 => absurd hj0 (by simp), fun _ => rfl⟩
  | some j =>
      by_cases hs : j.status = JobStatus.queued ∨ j.status = JobStatus.processing
      · have he : cancel_job jobs job_id now =
            (true, jupdate (cancelFields now) jobs job_id) := by
          unfold cancel_job
          rw [hj]
          exact if_pos hs
        rw [he]
        refine ⟨⟨fun _ => ⟨j, rfl, hs⟩, fun _ => rfl⟩, ?_, ?_⟩
        · intro j0 hj0 _
          obtain rfl : j = j0 := by injection hj0
          constructor
          · rw [jget_jupdate_self, hj]
            rfl
          · intro k hk
            exact jget_jupdate_ne _ jobs job_id k hk
        · intro h
          simp at h
      · have he : cancel_job jobs job_id now = (false, jobs) := by
          unfold cancel_job
          rw [hj]
          exact if_neg hs
        rw [he]
        refine ⟨⟨fun h => by simp at h, ?_⟩, ?_, fun _ => rfl⟩
        · rintro ⟨j0, hj0, hs0⟩
          obtain rfl : j = j0 := by injection hj0
          exact absurd hs0 hs
        · intro j0 hj0 hs0
          obtain rfl : j = j0 := by injection hj0
          exact absurd hs0 hs

/-- Witness for C5: cancelling a queued job succeeds and rewrites exactly that
record; cancelling a completed job and cancelling an absent id both return
`False` with the store unchanged. -/
theorem cancel_job_spec_witness :
    (cancel_job [(0, newJobInfo 0 "a.pdf" "html" 0)] 0 9).1 = true
  ∧ jget (cancel_job [(0, newJobInfo 0 "a.pdf" "html" 0)] 0 9).2 0 =
      some { newJobInfo 0 "a.pdf" "html" 0 with
               status := JobStatus.cancelled
               message := "Job cancelled by user"
               completed_at := some 9 }
  ∧ (cancel_job [(0, { newJobInfo 0 "a.pdf" "html" 0 with
        status := JobStatus.completed })] 0 9) =
      (false, [(0, { newJobInfo 0 "a.pdf" "html" 0 with
        status := JobStatus.completed })])
  ∧ (cancel_job [(0, newJobInfo 0 "a.pdf" "html" 0)] 3 9) =
      (false, [(0, newJobInfo 0 "a.pdf" "html" 0)]) := by
  have h1 := cancel_job_spec [(0, newJobInfo 0 "a.pdf" "html" 0)] 0 9
  refine ⟨?_, ?_, ?_, ?_⟩
  · exact h1.1.mpr ⟨newJobInfo 0 "a.pdf" "html" 0, by rfl, Or.inl (by rfl)⟩
  · exact (h1.2.1 (newJobInfo 0 "a.pdf" "html" 0) (by rfl) (Or.inl (by rfl))).1
  · have h2 := cancel_job_spec [(0, { newJobInfo 0 "a.pdf" "html" 0 with
        status := JobStatus.completed })] 0 9
    have hf : (cancel_job [(0, { newJobInfo 0 "a.pdf" "html" 0 with
        status := JobStatus.completed })] 0 9).1 = false := by decide
    have := h2.2.2 hf
    exact Prod.ext hf this
  · have h3 := cancel_job_spec [(0, newJobInfo 0 "a.pdf" "html" 0)] 3 9
    have hf : (cancel_job [(0, newJobInfo 0 "a.pdf" "html" 0)] 3 9).1 = false := by decide
    exact Prod.ext hf (h3.2.2 hf)

theorem removable_iff (now age : Int) (j : JobInfo) :
    removable now age j = true ↔
      isTerminal j.status = true ∧ ∃ c, j.completed_at = some c ∧ c < now - age := by
  unfold removable
  cases hc : j.completed_at <;> simp [hc]

/-- Claim C6: `cleanup_old_jobs` deletes exactly the records whose status is
terminal (`completed`, `failed`, `cancelled`) and whose `completed_at` is
older than the retention window (`now - age`, default one hour), and keeps
every `queued` or `processing` record regardless of its age. -/
theorem cleanup_old_jobs_spec (jobs : Jobs) (now age : Int) (job_id : Nat)
    (j : JobInfo) :
    ((job_id, j) ∈ cleanup_old_jobs jobs now age ↔
       (job_id, j) ∈ jobs ∧
         ¬ (isTerminal j.status = true ∧ ∃ c, j.completed_at = some c ∧ c < now - age))
  ∧ ((job_id, j) ∈ jobs →
       (j.status = JobStatus.queued ∨ j.status = JobStatus.processing) →
       (job_id, j) ∈ cleanup_old_jobs jobs now age) := by
  constructor
  · unfold cleanup_old_jobs
    rw [List.mem_filter]
    constructor
    · rintro ⟨hm, hq⟩
      refine ⟨hm, ?_⟩
      intro hr
      rw [← removable_iff now age j] at hr
      rw [hr] at hq
      simp at hq
    · rintro ⟨hm, hq⟩
      refine ⟨hm, ?_⟩
      have : removable now age j = false := by
        cases hr : removable now age j
        · rfl
        · exact absurd ((removable_iff now age j).mp hr) hq
      simp [this]
  · intro hm hs
    unfold cleanup_old_jobs
    rw [List.mem_filter]
    refine ⟨hm, ?_⟩
    have : isTerminal j.status = false := by
      rcases hs with hs | hs <;> rw [hs] <;> rfl
    simp [removable, this]

/-- Witness for C6: with `now = 7200` and a one-hour window, an old completed
job is deleted while an equally old processing job and a recent completed job
are kept. -/
theorem cleanup_old_jobs_spec_witness :
    (0, { newJobInfo 0 "a.pdf" "html" 0 with
            status := JobStatus.completed, completed_at := some 100 }) ∉
      cleanup_old_jobs
        [(0, { newJobInfo 0 "a.pdf" "html" 0 with
                 status := JobStatus.completed, completed_at := some 100 }),
         (1, { newJobInfo 1 "b.pdf" "html" 0 with
                 status := JobStatus.processing, started_at := some 100 }),
         (2, { newJobInfo 2 "c.pdf" "html" 0 with
                 status := JobStatus.completed, completed_at := some 7000 })]
        7200 3600
  ∧ (1, { newJobInfo 1 "b.pdf" "html" 0 with
            status := JobStatus.processing, started_at := some 100 }) ∈
      cleanup_old_jobs
        [(0, { newJobInfo 0 "a.pdf" "html" 0 with
                 status := JobStatus.completed, completed_at := some 100 }),
         (1, { newJobInfo 1 "b.pdf" "html" 0 with
                 status := JobStatus.processing, started_at := some 100 }),
         (2, { newJobInfo 2 "c.pdf" "html" 0 with
                 status := JobStatus.completed, completed_at := some 7000 })]
        7200 3600
  ∧ (2, { newJobInfo 2 "c.pdf" "html" 0 with
            status := JobStatus.completed, completed_at := some 7000 }) ∈
      cleanup_old_jobs
        [(0, { newJobInfo 0 "a.pdf" "html" 0 with
                 status := JobStatus.completed, completed_at := some 100 }),
         (1, { newJobInfo 1 "b.pdf" "html" 0 with
                 status := JobStatus.processing, started_at := some 100 }),
         (2, { newJobInfo 2 "c.pdf" "html" 0 with
                 status := JobStatus.completed, completed_at := some 7000 })]
        7200 3600 := by
  refine ⟨?_, ?_, ?_⟩
  · intro hmem
    have h := (cleanup_old_jobs_spec _ 7200 3600 0 _).1.mp hmem
    exact h.2 ⟨by decide, 100, rfl, by decide⟩
  · exact (cleanup_old_jobs_spec _ 7200 3600 1 _).2 (by decide) (Or.inr rfl)
  · refine ((cleanup_old_jobs_spec _ 7200 3600 2 _).1.mpr ⟨by decide, ?_⟩)
    rintro ⟨-, c, hc, hlt⟩
    obtain rfl : c = 7000 := by injection hc.symm
    exact absurd hlt (by decide)

/-- Claim C10: for an absent job id `update_progress` is a silent no-op — it
returns the store unchanged (and, being a total function, cannot raise), so a
late progress or heartbeat callback can neither fault nor resurrect a
cleaned-up record; moreover it never modifies any record's `status`,
`created_at`, `started_at`, `completed_at`, `error`, or `output_content`. -/
theorem update_progress_frame (jobs : Jobs) (job_id : Nat) (p : ℚ)
    (cp tp : Option Int) (m : Option String) :
    (jget jobs job_id = none → update_progress jobs job_id p cp tp m = jobs)
  ∧ (∀ k, jget jobs k = none → jget (update_progress jobs job_id p cp tp m) k = none)
  ∧ (∀ k j, jget jobs k = some j →
       ∃ j2, jget (update_progress jobs job_id p cp tp m) k = some j2
         ∧ j2.status = j.status ∧ j2.created_at = j.created_at
         ∧ j2.started_at = j.started_at ∧ j2.completed_at = j.completed_at
         ∧ j2.error = j.error ∧ j2.output_content = j.output_content
         ∧ (k ≠ job_id → j2 = j)) := by
  cases hj : jget jobs job_id with
  | none =>
      rw [update_progress_of_jget_none jobs job_id p cp tp m hj]
      refine ⟨fun _ => rfl, fun k hk => hk, ?_⟩
      intro k j hk
      exact ⟨j, hk, rfl, rfl, rfl, rfl, rfl, rfl, fun _ => rfl⟩
  | some j0 =>
      rw [update_progress_of_jget_some jobs job_id p cp tp m j0 hj]
      refine ⟨?_, ?_, ?_⟩
      · intro h
        exact Option.noConfusion h
      · intro k hk
        have hkne : k ≠ job_id := by
          intro he
          rw [he, hj] at hk
          exact Option.noConfusion hk
        rw [jget_jupdate_ne _ jobs job_id k hkne]
        exact hk
      · intro k j hk
        by_cases hkj : k = job_id
        · subst hkj
          rw [hj] at hk
          injection hk with hk2
          subst hk2
          refine ⟨progressFields p cp tp m j0, ?_, ?_⟩
          · rw [jget_jupdate_self, hj]
            rfl
          · obtain ⟨h1, h2, h3, h4, h5, h6, -⟩ := progressFields_frames p cp tp m j0
            exact ⟨h1, h2, h3, h4, h5, h6, fun hne => absurd rfl hne⟩
        · rw [jget_jupdate_ne _ jobs job_id k hkj]
          exact ⟨j, hk, rfl, rfl, rfl, rfl, rfl, rfl, fun _ => rfl⟩

/-- Witness for C10: a progress update addressed to an id that is not in the
store returns the store unchanged, and a real update leaves the target
record's status and terminal fields intact. -/
theorem update_progress_frame_witness :
    update_progress [(0, newJobInfo 0 "a.pdf" "html" 0)] 7 (1/2) none none none =
      [(0, newJobInfo 0 "a.pdf" "html" 0)]
  ∧ (∃ j2, jget (update_progress [(0, newJobInfo 0 "a.pdf" "html" 0)] 0
        (1/2) none none none) 0 = some j2
      ∧ j2.status = JobStatus.queued ∧ j2.completed_at = none
      ∧ j2.error = none ∧ j2.output_content = none) := by
  constructor
  · exact (update_progress_frame [(0, newJobInfo 0 "a.pdf" "html" 0)] 7
      (1/2) none none none).1 (by rfl)
  · obtain ⟨j2, hg, hs, -, -, hc, he, ho, -⟩ :=
      (update_progress_frame [(0, newJobInfo 0 "a.pdf" "html" 0)] 0
        (1/2) none none none).2.2 0 (newJobInfo 0 "a.pdf" "html" 0) (by rfl)
    exact ⟨j2, hg, hs, hc, he, ho⟩

-- ## Claim theorems: the async-convert handler and the worker loop at concrete inputs

/-- Claim C1 (refuting evaluation): the claim says a supported upload yields a
queued Job Record plus a job-id/message body, and that 400 is returned exactly
on an unsupported extension.  On the code as written every request to
`POST /convert-async` ends in HTTP 500: the `create_job` call site omits the
required `project_id` parameter, so Python raises `TypeError` inside the `try`
block before any job is created, and the `HTTPException(400)` raised for an
unsupported extension is itself caught by the blanket `except Exception` and
re-raised as a 500.  Shown for all inputs and evaluated at the concrete
inputs `report.pdf` (supported) and `report.txt` (unsupported). -/
theorem convert_async_returns_500 :
    (∀ filename output_format : String,
       respStatus (convert_document_async filename output_format) = some 500)
  ∧ validate_file "report.pdf" = true
  ∧ respStatus (convert_document_async "report.pdf" "html") = some 500
  ∧ validate_file "report.txt" = false
  ∧ respStatus (convert_document_async "report.txt" "html") = some 500 := by
  refine ⟨?_, by rfl, by rfl, by rfl, by rfl⟩
  intro fn fmt
  unfold convert_document_async tryBody
  by_cases h : validate_file fn = false
  · rw [if_pos h]
    rfl
  · rw [if_neg h]
    rfl

/-- Claim C2 (refuting evaluation): a conversion task resolves with output
file `out.xml`, page count 3 and no error; the worker loop marks the job
`completed` with `progress = 1.0`, stores the page count and stamps
`completed_at` — but it never assigns `output_content` (the returned
`output_file` is discarded), so `GET /jobs/{id}/result` answers
`success = true` with `output_content = none` instead of the claimed
non-empty `output_content`. -/
theorem completed_job_has_no_output_content :
    ((jget (runTrace initState
        [JobAction.submit "p" "report.pdf" "html"
           (TaskOutcome.ok (some "out.xml") (some 3) none),
         JobAction.deq, JobAction.finish]).jobs 0) =
      some { job_id := 0, status := JobStatus.completed, progress := 1,
             current_page := none, total_pages := some 3,
             message := "Conversion completed (3 pages)", created_at := 0,
             started_at := some 0, completed_at := some 0, error := none,
             filename := some "report.pdf", output_format := some "html",
             output_content := none })
  ∧ get_job_result (runTrace initState
        [JobAction.submit "p" "report.pdf" "html"
           (TaskOutcome.ok (some "out.xml") (some 3) none),
         JobAction.deq, JobAction.finish]).jobs 0 =
      ResultResp.result
        { job_id := 0, success := true, output_content := none,
          page_count := some 3, error := none } := by
  constructor <;> decide

/-- Claim C3 (refuting evaluation): a job dequeued (status `processing`) and
then cancelled (terminal status `cancelled`) is overwritten to `completed`
when the in-flight conversion returns — step 6 of the worker loop
terminalizes unconditionally without re-checking for cancellation, so the
record regresses from the terminal `cancelled` state and the conversion
result is not discarded. -/
theorem cancelled_job_regresses_on_finish :
    ((jget (runTrace initState
        [JobAction.submit "p" "report.pdf" "html"
           (TaskOutcome.ok (some "out.xml") (some 3) none),
         JobAction.deq, JobAction.cancel 0]).jobs 0).map JobInfo.status =
      some JobStatus.cancelled)
  ∧ ((jget (runTrace initState
        [JobAction.submit "p" "report.pdf" "html"
           (TaskOutcome.ok (some "out.xml") (some 3) none),
         JobAction.deq, JobAction.cancel 0,
         JobAction.finish]).jobs 0).map JobInfo.status =
      some JobStatus.completed) := by
  constructor <;> decide

/-- Claim C7: when the awaited conversion task raises with message `m`, the
worker loop records that job as `failed` with the fault's message as its
`error` (non-empty whenever the fault's message is non-empty), stamps
`completed_at`, touches no other record, keeps the queue intact, returns to
idle, and the next queued job still begins processing on the following
iteration — one job's failure neither aborts the loop nor affects any other
job. -/
theorem worker_isolates_failures (s : SysState) (job_id : Nat) (m : String)
    (j : JobInfo) (next_id : Nat) (next_task : TaskOutcome)
    (rest : List (Nat × TaskOutcome)) (j2 : JobInfo)
    (hw : s.worker = WorkerPhase.running job_id (TaskOutcome.raise m))
    (hj : jget s.jobs job_id = some j)
    (hq : s.queue = (next_id, next_task) :: rest)
    (hj2 : jget s.jobs next_id = some j2)
    (hst2 : j2.status = JobStatus.queued)
    (hne : next_id ≠ job_id)
    (hm : m ≠ "") :
    (∃ e, e ≠ "" ∧ jget (applyFinish s).jobs job_id =
        some { j with status := JobStatus.failed, error := some e,
                      message := "Conversion failed: " ++ e,
                      completed_at := some s.now })
  ∧ (applyFinish s).worker = WorkerPhase.idle
  ∧ (applyFinish s).queue = (next_id, next_task) :: rest
  ∧ (∀ k, k ≠ job_id → jget (applyFinish s).jobs k = jget s.jobs k)
  ∧ (applyDeq (applyFinish s)).worker = WorkerPhase.running next_id next_task
  ∧ jget (applyDeq (applyFinish s)).jobs next_id = some (startJob s.now j2) := by
  obtain ⟨jobs0, queue0, worker0, nextId0, now0, enq0, deqd0, fin0⟩ := s
  simp only at hw hq hj hj2 ⊢
  subst hw
  subst hq
  have hfin :
      applyFinish
        { jobs := jobs0, queue := (next_id, next_task) :: rest,
          worker := WorkerPhase.running job_id (TaskOutcome.raise m),
          nextId := nextId0, now := now0, enq := enq0, deqd := deqd0,
          fin := fin0 } =
      { jobs := jupdate (finishJob now0 (TaskOutcome.raise m)) jobs0 job_id,
        queue := (next_id, next_task) :: rest,
        worker := WorkerPhase.idle, nextId := nextId0, now := now0,
        enq := enq0, deqd := deqd0, fin := fin0 ++ [job_id] } := rfl
  rw [hfin]
  have hJ2 : jget (jupdate (finishJob now0 (TaskOutcome.raise m)) jobs0 job_id)
      next_id = some j2 := by
    rw [jget_jupdate_ne _ jobs0 job_id next_id hne]
    exact hj2
  refine ⟨⟨m, hm, ?_⟩, rfl, rfl, ?_, ?_, ?_⟩
  · rw [jget_jupdate_self, hj]
    rfl
  · intro k hk
    exact jget_jupdate_ne _ jobs0 job_id k hk
  · unfold applyDeq
    dsimp only
    rw [hJ2]
    dsimp only
    have hnc : ¬ j2.status = JobStatus.cancelled := by
      rw [hst2]
      intro hcon
      exact JobStatus.noConfusion hcon
    rw [if_neg hnc]
  · unfold applyDeq
    dsimp only
    rw [hJ2]
    dsimp only
    have hnc : ¬ j2.status = JobStatus.cancelled := by
      rw [hst2]
      intro hcon
      exact JobStatus.noConfusion hcon
    rw [if_neg hnc]
    dsimp only
    rw [jget_jupdate_self, hJ2]
    rfl

/-- Witness for C7: a concrete two-job state in which job 0's task raises
`"boom"`; job 0 ends `failed` with that non-empty error and job 1 is the next
to start processing. -/
theorem worker_isolates_failures_witness :
    ((1:Nat) ≠ 0) ∧ ("boom" ≠ "") ∧
    (applyDeq (applyFinish
      { jobs := [(0, { newJobInfo 0 "a.pdf" "html" 0 with
                         status := JobStatus.processing, started_at := some 0 }),
                 (1, newJobInfo 1 "b.pdf" "html" 0)],
        queue := [(1, TaskOutcome.ok (some "o") (some 1) none)],
        worker := WorkerPhase.running 0 (TaskOutcome.raise "boom"),
        nextId := 2, now := 5, enq := [0, 1], deqd := [0],
        fin := [] })).worker =
      WorkerPhase.running 1 (TaskOutcome.ok (some "o") (some 1) none) := by
  refine ⟨by decide, by decide, ?_⟩
  have h := worker_isolates_failures
    { jobs := [(0, { newJobInfo 0 "a.pdf" "html" 0 with
                       status := JobStatus.processing, started_at := some 0 }),
               (1, newJobInfo 1 "b.pdf" "html" 0)],
      queue := [(1, TaskOutcome.ok (some "o") (some 1) none)],
      worker := WorkerPhase.running 0 (TaskOutcome.raise "boom"),
      nextId := 2, now := 5, enq := [0, 1], deqd := [0], fin := [] }
    0 "boom"
    { newJobInfo 0 "a.pdf" "html" 0 with
        status := JobStatus.processing, started_at := some 0 }
    1 (TaskOutcome.ok (some "o") (some 1) none) []
    (newJobInfo 1 "b.pdf" "html" 0)
    rfl rfl rfl rfl rfl (by decide) (by decide)
  exact h.2.2.2.2.1

-- ## Helper lemmas for the transition-system invariants

theorem jget_mem_keys (l : Jobs) (i : Nat) (j : JobInfo)
    (h : jget l i = some j) : i ∈ l.map Prod.fst :=
  List.mem_map.mpr ⟨(i, j), jget_mem l i j h, rfl⟩

theorem jget_jupdate_none (f : JobInfo → JobInfo) (l : Jobs) (k i : Nat)
    (h : jget l i = none) : jget (jupdate f l k) i = none := by
  by_cases hik : i = k
  · subst hik
    rw [jget_jupdate_self, h]
    rfl
  · rw [jget_jupdate_ne _ l k i hik]
    exact h

theorem jget_jupdate_some (f : JobInfo → JobInfo) (l : Jobs) (k i : Nat)
    (j : JobInfo) (h : jget (jupdate f l k) i = some j) :
    (i ≠ k ∧ jget l i = some j) ∨
    (i = k ∧ ∃ j0, jget l k = some j0 ∧ j = f j0) := by
  by_cases hik : i = k
  · subst hik
    rw [jget_jupdate_self] at h
    cases h0 : jget l i with
    | none => rw [h0] at h; cases h
    | some j0 =>
        rw [h0] at h
        right
        refine ⟨rfl, j0, rfl, ?_⟩
        injection h with h2
        exact h2.symm
  · left
    rw [jget_jupdate_ne _ l k i hik] at h
    exact ⟨hik, h⟩

theorem jget_append_left (l m : Jobs) (i : Nat) (j : JobInfo)
    (h : jget l i = some j) : jget (l ++ m) i = some j := by
  rw [jget_append, h]

theorem jget_append_fresh (l : Jobs) (k : Nat) (j : JobInfo)
    (h : jget l k = none) : jget (l ++ [(k, j)]) k = some j := by
  rw [jget_append, h]
  simp [jget]

theorem jget_append_singleton_none (l : Jobs) (k : Nat) (jnew : JobInfo)
    (i : Nat) (h : jget l i = none) (hk : k ≠ i) :
    jget (l ++ [(k, jnew)]) i = none := by
  rw [jget_append, h]
  simp [jget, hk]

theorem jget_append_singleton_some (l : Jobs) (k : Nat) (jnew : JobInfo)
    (i : Nat) (j : JobInfo) (h : jget (l ++ [(k, jnew)]) i = some j) :
    jget l i = some j ∨ (jget l i = none ∧ i = k ∧ j = jnew) := by
  rw [jget_append] at h
  cases h0 : jget l i with
  | some j0 =>
      rw [h0] at h
      left
      exact h
  | none =>
      rw [h0] at h
      right
      refine ⟨rfl, ?_, ?_⟩
      · by_cases hik : k = i
        · exact hik.symm
        · simp [jget, hik] at h
      · by_cases hik : k = i
        · simp [jget, hik] at h
          exact h.symm
        · simp [jget, hik] at h

theorem cleanup_keys_sublist (jobs : Jobs) (now age : Int) :
    List.Sublist ((cleanup_old_jobs jobs now age).map Prod.fst)
      (jobs.map Prod.fst) :=
  List.Sublist.map Prod.fst (List.filter_sublist jobs)

theorem cleanup_nodup (jobs : Jobs) (now age : Int)
    (h : (jobs.map Prod.fst).Nodup) :
    ((cleanup_old_jobs jobs now age).map Prod.fst).Nodup :=
  List.Nodup.sublist (cleanup_keys_sublist jobs now age) h

theorem jget_cleanup_none (jobs : Jobs) (now age : Int) (i : Nat)
    (h : jget jobs i = none) : jget (cleanup_old_jobs jobs now age) i = none := by
  rw [jget_eq_none_iff] at h ⊢
  intro hmem
  exact h ((cleanup_keys_sublist jobs now age).subset hmem)

theorem jget_cleanup_some (jobs : Jobs) (now age : Int) (i : Nat) (j : JobInfo)
    (hnd : (jobs.map Prod.fst).Nodup)
    (h : jget (cleanup_old_jobs jobs now age) i = some j) :
    jget jobs i = some j :=
  mem_jget_of_nodup jobs i j hnd
    (List.mem_filter.mp (jget_mem _ i j h)).1

theorem jget_cleanup_of_keep (jobs : Jobs) (now age : Int) (i : Nat)
    (j : JobInfo) (hnd : (jobs.map Prod.fst).Nodup)
    (hj : jget jobs i = some j) (hk : removable now age j = false) :
    jget (cleanup_old_jobs jobs now age) i = some j :=
  mem_jget_of_nodup _ i j (cleanup_nodup jobs now age hnd)
    (List.mem_filter.mpr ⟨jget_mem jobs i j hj, by simp [hk]⟩)

theorem nodup_append_singleton {l : List Nat} {a : Nat} (h : l.Nodup)
    (ha : a ∉ l) : (l ++ [a]).Nodup := by
  rw [List.nodup_append]
  refine ⟨h, List.nodup_singleton a, ?_⟩
  intro x hx hx2
  simp at hx2
  subst hx2
  exact ha hx

theorem finishJob_status (now : Int) (task : TaskOutcome) (j : JobInfo) :
    (finishJob now task j).status = JobStatus.completed ∨
    (finishJob now task j).status = JobStatus.failed := by
  cases task with
  | ok f pc e =>
      cases e with
      | none => exact Or.inl rfl
      | some e0 =>
          by_cases he : e0 = ""
          · left
            simp [finishJob, he, completeJob]
          · right
            simp [finishJob, he, failJob]
  | raise m => exact Or.inr rfl

theorem cancel_job_cases (jobs : Jobs) (cid : Nat) (now : Int) :
    (cancel_job jobs cid now).2 = jobs ∨
    ∃ j, jget jobs cid = some j ∧
      (j.status = JobStatus.queued ∨ j.status = JobStatus.processing) ∧
      (cancel_job jobs cid now).2 = jupdate (cancelFields now) jobs cid := by
  cases h : jget jobs cid with
  | none =>
      left
      unfold cancel_job
      rw [h]
  | some j =>
      by_cases hs : j.status = JobStatus.queued ∨ j.status = JobStatus.processing
      · right
        refine ⟨j, rfl, hs, ?_⟩
        unfold cancel_job
        rw [h]
        dsimp only
        rw [if_pos hs]
      · left
        unfold cancel_job
        rw [h]
        dsimp only
        rw [if_neg hs]

theorem invG_submit (s : SysState) (fn fmt : String) (task : TaskOutcome)
    (h : InvG s) : InvG (applySubmit s fn fmt task) := by
  obtain ⟨jobsFresh, jobsNodup, queueLt, enqLt, enqNodup, fifo, procOwner,
    runJob, runDeqd⟩ := h
  refine ⟨?_, ?_, ?_, ?_, ?_, ?_, ?_, ?_, ?_⟩
  · intro i hi
    dsimp only [applySubmit, create_job] at hi ⊢
    refine jget_append_singleton_none _ _ _ _ ?_ ?_
    · exact jobsFresh i (Nat.le_of_succ_le hi)
    · intro he
      omega
  · dsimp only [applySubmit, create_job]
    rw [List.map_append]
    refine nodup_append_singleton jobsNodup ?_
    rw [← jget_eq_none_iff]
    exact jobsFresh s.nextId (le_refl _)
  · dsimp only [applySubmit]
    intro i hi
    rw [List.map_append] at hi
    rcases List.mem_append.mp hi with hi | hi
    · exact Nat.lt_succ_of_lt (queueLt i hi)
    · simp at hi
      subst hi
      exact Nat.lt_succ_self _
  · intro i hi
    dsimp only [applySubmit] at hi ⊢
    rcases List.mem_append.mp hi with hi | hi
    · exact Nat.lt_succ_of_lt (enqLt i hi)
    · simp at hi
      subst hi
      exact Nat.lt_succ_self _
  · dsimp only [applySubmit]
    refine nodup_append_singleton enqNodup ?_
    intro hmem
    exact absurd (enqLt _ hmem) (lt_irrefl _)
  · dsimp only [applySubmit]
    rw [List.map_append, fifo, List.append_assoc]
    simp
  · intro i j hj hst
    dsimp only [applySubmit, create_job] at hj
    rcases jget_append_singleton_some _ _ _ _ _ hj with hj | ⟨-, -, hje⟩
    · exact procOwner i j hj hst
    · subst hje
      simp [newJobInfo] at hst
  · intro i t hw
    obtain ⟨j, hj, hst⟩ := runJob i t hw
    exact ⟨j, jget_append_left _ _ _ _ hj, hst⟩
  · exact runDeqd

theorem invG_deq (s : SysState) (h : InvG s) : InvG (applyDeq s) := by
  obtain ⟨jobs0, queue0, worker0, nextId0, now0, enq0, deqd0, fin0⟩ := s
  obtain ⟨jobsFresh, jobsNodup, queueLt, enqLt, enqNodup, fifo, procOwner,
    runJob, runDeqd⟩ := h
  cases worker0 with
  | running id task =>
      exact ⟨jobsFresh, jobsNodup, queueLt, enqLt, enqNodup, fifo, procOwner,
        runJob, runDeqd⟩
  | idle =>
      cases queue0 with
      | nil =>
          exact ⟨jobsFresh, jobsNodup, queueLt, enqLt, enqNodup, fifo,
            procOwner, runJob, runDeqd⟩
      | cons head rest =>
          obtain ⟨id, task⟩ := head
          cases hj : jget jobs0 id with
          | none =>
              have happ : applyDeq ⟨jobs0, (id, task) :: rest,
                  WorkerPhase.idle, nextId0, now0, enq0, deqd0, fin0⟩ =
                  ⟨jobs0, rest, WorkerPhase.idle, nextId0, now0, enq0,
                   deqd0 ++ [id], fin0⟩ := by
                unfold applyDeq
                dsimp only
                rw [hj]
              rw [happ]
              refine ⟨jobsFresh, jobsNodup, ?_, enqLt, enqNodup, ?_, ?_, ?_, ?_⟩
              · intro i hi
                exact queueLt i (by simp [hi])
              · rw [fifo]
                simp
              · intro i j hji hst
                obtain ⟨t, ht⟩ := procOwner i j hji hst
                exact WorkerPhase.noConfusion ht
              · intro i t hw
                exact WorkerPhase.noConfusion hw
              · intro i t hw
                exact WorkerPhase.noConfusion hw
          | some j =>
              by_cases hc : j.status = JobStatus.cancelled
              · have happ : applyDeq ⟨jobs0, (id, task) :: rest,
                    WorkerPhase.idle, nextId0, now0, enq0, deqd0, fin0⟩ =
                    ⟨jobs0, rest, WorkerPhase.idle, nextId0, now0, enq0,
                     deqd0 ++ [id], fin0⟩ := by
                  unfold applyDeq
                  dsimp only
                  rw [hj]
                  dsimp only
                  rw [if_pos hc]
                rw [happ]
                refine ⟨jobsFresh, jobsNodup, ?_, enqLt, enqNodup, ?_, ?_, ?_, ?_⟩
                · intro i hi
                  exact queueLt i (by simp [hi])
                · rw [fifo]
                  simp
                · intro i j2 hji hst
                  obtain ⟨t, ht⟩ := procOwner i j2 hji hst
                  exact WorkerPhase.noConfusion ht
                · intro i t hw
                  exact WorkerPhase.noConfusion hw
                · intro i t hw
                  exact WorkerPhase.noConfusion hw
              · have happ : applyDeq ⟨jobs0, (id, task) :: rest,
                    WorkerPhase.idle, nextId0, now0, enq0, deqd0, fin0⟩ =
                    ⟨jupdate (startJob now0) jobs0 id, rest,
                     WorkerPhase.running id task, nextId0, now0, enq0,
                     deqd0 ++ [id], fin0⟩ := by
                  unfold applyDeq
                  dsimp only
                  rw [hj]
                  dsimp only
                  rw [if_neg hc]
                rw [happ]
                refine ⟨?_, ?_, ?_, enqLt, enqNodup, ?_, ?_, ?_, ?_⟩
                · intro i hi
                  exact jget_jupdate_none _ _ _ _ (jobsFresh i hi)
                · show ((jupdate (startJob now0) jobs0 id).map Prod.fst).Nodup
                  rw [jupdate_keys]
                  exact jobsNodup
                · intro i hi
                  exact queueLt i (by simp [hi])
                · rw [fifo]
                  simp
                · intro i j2 hj2 hst
                  rcases jget_jupdate_some _ _ _ _ _ hj2 with ⟨hne, hji⟩ |
                    ⟨heq, j0, hj0, hje⟩
                  · obtain ⟨t', ht'⟩ := procOwner i j2 hji hst
                    exact WorkerPhase.noConfusion ht'
                  · subst heq
                    exact ⟨task, rfl⟩
                · intro i t2 hw
                  injection hw with h1 h2
                  subst h1
                  subst h2
                  refine ⟨startJob now0 j, ?_, Or.inl rfl⟩
                  rw [jget_jupdate_self, hj]
                  rfl
                · intro i t2 hw
                  injection hw with h1 h2
                  subst h1
                  simp

theorem invG_finish (s : SysState) (h : InvG s) : InvG (applyFinish s) := by
  obtain ⟨jobs0, queue0, worker0, nextId0, now0, enq0, deqd0, fin0⟩ := s
  obtain ⟨jobsFresh, jobsNodup, queueLt, enqLt, enqNodup, fifo, procOwner,
    runJob, runDeqd⟩ := h
  cases worker0 with
  | idle =>
      exact ⟨jobsFresh, jobsNodup, queueLt, enqLt, enqNodup, fifo, procOwner,
        runJob, runDeqd⟩
  | running id task =>
      have happ : applyFinish ⟨jobs0, queue0, WorkerPhase.running id task,
          nextId0, now0, enq0, deqd0, fin0⟩ =
          ⟨jupdate (finishJob now0 task) jobs0 id, queue0, WorkerPhase.idle,
           nextId0, now0, enq0, deqd0, fin0 ++ [id]⟩ := rfl
      rw [happ]
      refine ⟨?_, ?_, queueLt, enqLt, enqNodup, fifo, ?_, ?_, ?_⟩
      · intro i hi
        exact jget_jupdate_none _ _ _ _ (jobsFresh i hi)
      · show ((jupdate (finishJob now0 task) jobs0 id).map Prod.fst).Nodup
        rw [jupdate_keys]
        exact jobsNodup
      · intro i j hj hst
        rcases jget_jupdate_some _ _ _ _ _ hj with ⟨hne, hji⟩ |
          ⟨heq, j0, hj0, hje⟩
        · obtain ⟨t', ht'⟩ := procOwner i j hji hst
          injection ht' with h1 _
          exact absurd h1.symm hne
        · subst hje
          rcases finishJob_status now0 task j0 with hs | hs <;>
            rw [hst] at hs <;> exact JobStatus.noConfusion hs
      · intro i t hw
        exact WorkerPhase.noConfusion hw
      · intro i t hw
        exact WorkerPhase.noConfusion hw

theorem invG_cancel (s : SysState) (cid : Nat) (h : InvG s) :
    InvG (applyAction s (JobAction.cancel cid)) := by
  obtain ⟨jobsFresh, jobsNodup, queueLt, enqLt, enqNodup, fifo, procOwner,
    runJob, runDeqd⟩ := h
  rcases cancel_job_cases s.jobs cid s.now with hcc | ⟨j0, hj0, hs0, hcc⟩
  · show InvG { s with jobs := (cancel_job s.jobs cid s.now).2 }
    rw [hcc]
    exact ⟨jobsFresh, jobsNodup, queueLt, enqLt, enqNodup, fifo, procOwner,
      runJob, runDeqd⟩
  · show InvG { s with jobs := (cancel_job s.jobs cid s.now).2 }
    rw [hcc]
    refine ⟨?_, ?_, queueLt, enqLt, enqNodup, fifo, ?_, ?_, runDeqd⟩
    · intro i hi
      exact jget_jupdate_none _ _ _ _ (jobsFresh i hi)
    · show ((jupdate (cancelFields s.now) s.jobs cid).map Prod.fst).Nodup
      rw [jupdate_keys]
      exact jobsNodup
    · intro i j hj hst
      rcases jget_jupdate_some _ _ _ _ _ hj with ⟨hne, hji⟩ |
        ⟨heq, j1, hj1, hje⟩
      · exact procOwner i j hji hst
      · subst hje
        simp [cancelFields] at hst
    · intro i t hw
      obtain ⟨j, hj, hst⟩ := runJob i t hw
      by_cases hic : i = cid
      · subst hic
        refine ⟨cancelFields s.now j, ?_, Or.inr rfl⟩
        rw [jget_jupdate_self, hj]
        rfl
      · refine ⟨j, ?_, hst⟩
        rw [jget_jupdate_ne _ _ _ _ hic]
        exact hj

theorem invG_progress (s : SysState) (pid : Nat) (p : ℚ) (cp tp : Option Int)
    (m : Option String) (h : InvG s) :
    InvG (applyAction s (JobAction.progress pid p cp tp m)) := by
  obtain ⟨jobsFresh, jobsNodup, queueLt, enqLt, enqNodup, fifo, procOwner,
    runJob, runDeqd⟩ := h
  show InvG { s with jobs := update_progress s.jobs pid p cp tp m }
  cases hj : jget s.jobs pid with
  | none =>
      rw [update_progress_of_jget_none _ _ _ _ _ _ hj]
      exact ⟨jobsFresh, jobsNodup, queueLt, enqLt, enqNodup, fifo, procOwner,
        runJob, runDeqd⟩
  | some j0 =>
      rw [update_progress_of_jget_some _ _ _ _ _ _ _ hj]
      refine ⟨?_, ?_, queueLt, enqLt, enqNodup, fifo, ?_, ?_, runDeqd⟩
      · intro i hi
        exact jget_jupdate_none _ _ _ _ (jobsFresh i hi)
      · show ((jupdate (progressFields p cp tp m) s.jobs pid).map Prod.fst).Nodup
        rw [jupdate_keys]
        exact jobsNodup
      · intro i j hj2 hst
        rcases jget_jupdate_some _ _ _ _ _ hj2 with ⟨hne, hji⟩ |
          ⟨heq, j1, hj1, hje⟩
        · exact procOwner i j hji hst
        · subst heq
          subst hje
          rw [(progressFields_frames p cp tp m j1).1] at hst
          exact procOwner _ j1 hj1 hst
      · intro i t hw
        obtain ⟨j, hj2, hst⟩ := runJob i t hw
        by_cases hic : i = pid
        · subst hic
          refine ⟨progressFields p cp tp m j, ?_, ?_⟩
          · rw [jget_jupdate_self, hj2]
            rfl
          · rw [(progressFields_frames p cp tp m j).1]
            exact hst
        · refine ⟨j, ?_, hst⟩
          rw [jget_jupdate_ne _ _ _ _ hic]
          exact hj2

theorem invG_cleanup (s : SysState) (h : InvG s) :
    InvG (applyAction s JobAction.cleanup) := by
  obtain ⟨jobsFresh, jobsNodup, queueLt, enqLt, enqNodup, fifo, procOwner,
    runJob, runDeqd⟩ := h
  cases hw : s.worker with
  | running id task =>
      have happ : applyAction s JobAction.cleanup = s := by
        unfold applyAction
        rw [hw]
      rw [happ]
      exact ⟨jobsFresh, jobsNodup, queueLt, enqLt, enqNodup, fifo, procOwner,
        runJob, runDeqd⟩
  | idle =>
      have happ : applyAction s JobAction.cleanup =
          { s with jobs := cleanup_old_jobs s.jobs s.now defaultCleanupAge } := by
        unfold applyAction
        rw [hw]
      rw [happ]
      refine ⟨?_, ?_, queueLt, enqLt, enqNodup, fifo, ?_, ?_, ?_⟩
      · intro i hi
        exact jget_cleanup_none _ _ _ _ (jobsFresh i hi)
      · exact cleanup_nodup _ _ _ jobsNodup
      · intro i j hj hst
        exact procOwner i j (jget_cleanup_some _ _ _ _ _ jobsNodup hj) hst
      · intro i t hw2
        dsimp only at hw2
        rw [hw] at hw2
        exact WorkerPhase.noConfusion hw2
      · intro i t hw2
        dsimp only at hw2
        rw [hw] at hw2
        exact WorkerPhase.noConfusion hw2

theorem invG_step (s : SysState) (a : JobAction) (h : InvG s) :
    InvG (applyAction s a) := by
  cases a with
  | submit pid fn fmt task => exact invG_submit s fn fmt task h
  | deq => exact invG_deq s h
  | finish => exact invG_finish s h
  | cancel cid => exact invG_cancel s cid h
  | progress pid p cp tp m => exact invG_progress s pid p cp tp m h
  | cleanup => exact invG_cleanup s h
  | tick =>
      exact ⟨h.jobsFresh, h.jobsNodup, h.queueLt, h.enqLt, h.enqNodup, h.fifo,
        h.procOwner, h.runJob, h.runDeqd⟩

theorem invG_run (tr : List JobAction) (s : SysState) (h : InvG s) :
    InvG (runTrace s tr) := by
  induction tr generalizing s with
  | nil => exact h
  | cons a tr ih => exact ih (applyAction s a) (invG_step s a h)

theorem invG_init : InvG initState := by
  refine ⟨?_, ?_, ?_, ?_, ?_, ?_, ?_, ?_, ?_⟩
  · intro i _
    rfl
  · exact List.nodup_nil
  · intro i hi
    simp [initState] at hi
  · intro i hi
    simp [initState] at hi
  · exact List.nodup_nil
  · rfl
  · intro i j hj
    exact Option.noConfusion hj
  · intro i t hw
    exact WorkerPhase.noConfusion hw
  · intro i t hw
    exact WorkerPhase.noConfusion hw

theorem invNC_submit (s : SysState) (fn fmt : String) (task : TaskOutcome)
    (hG : InvG s) (h : InvNC s) : InvNC (applySubmit s fn fmt task) := by
  obtain ⟨noCancelled, queuedReady, deqdFin, finDone⟩ := h
  refine ⟨?_, ?_, deqdFin, ?_⟩
  · intro i j hj
    dsimp only [applySubmit, create_job] at hj
    rcases jget_append_singleton_some _ _ _ _ _ hj with hj | ⟨-, -, hje⟩
    · exact noCancelled i j hj
    · subst hje
      simp [newJobInfo]
  · intro p hp
    dsimp only [applySubmit] at hp ⊢
    rcases List.mem_append.mp hp with hp | hp
    · obtain ⟨j, hj, hst⟩ := queuedReady p hp
      exact ⟨j, jget_append_left _ _ _ _ hj, hst⟩
    · simp at hp
      subst hp
      refine ⟨newJobInfo s.nextId fn fmt s.now, ?_, rfl⟩
      exact jget_append_fresh _ _ _ (hG.jobsFresh s.nextId (le_refl _))
  · intro i hi j hj
    dsimp only [applySubmit, create_job] at hj hi ⊢
    rcases jget_append_singleton_some _ _ _ _ _ hj with hj | ⟨-, hik, hje⟩
    · exact finDone i hi j hj
    · exfalso
      have hienq : i ∈ s.enq := by
        rw [hG.fifo]
        refine List.mem_append.mpr (Or.inl ?_)
        rw [deqdFin]
        exact List.mem_append.mpr (Or.inl hi)
      have hlt := hG.enqLt _ hienq
      omega

theorem invNC_deq (s : SysState) (hG : InvG s) (h : InvNC s) :
    InvNC (applyDeq s) := by
  obtain ⟨jobs0, queue0, worker0, nextId0, now0, enq0, deqd0, fin0⟩ := s
  obtain ⟨jobsFresh, jobsNodup, queueLt, enqLt, enqNodup, fifo, procOwner,
    runJob, runDeqd⟩ := hG
  obtain ⟨noCancelled, queuedReady, deqdFin, finDone⟩ := h
  cases worker0 with
  | running id task => exact ⟨noCancelled, queuedReady, deqdFin, finDone⟩
  | idle =>
      cases queue0 with
      | nil => exact ⟨noCancelled, queuedReady, deqdFin, finDone⟩
      | cons head rest =>
          obtain ⟨id, task⟩ := head
          obtain ⟨j, hj, hjq⟩ := queuedReady (id, task) (by simp)
          have hc : ¬ j.status = JobStatus.cancelled := by
            rw [hjq]
            intro hco
            exact JobStatus.noConfusion hco
          have happ : applyDeq ⟨jobs0, (id, task) :: rest, WorkerPhase.idle,
              nextId0, now0, enq0, deqd0, fin0⟩ =
              ⟨jupdate (startJob now0) jobs0 id, rest,
               WorkerPhase.running id task, nextId0, now0, enq0,
               deqd0 ++ [id], fin0⟩ := by
            unfold applyDeq
            dsimp only
            rw [hj]
            dsimp only
            rw [if_neg hc]
          rw [happ]
          have hqn : (deqd0 ++ (id :: rest.map Prod.fst)).Nodup := by
            have h2 := enqNodup
            rw [fifo] at h2
            simpa using h2
          refine ⟨?_, ?_, ?_, ?_⟩
          · intro i j2 hj2
            rcases jget_jupdate_some _ _ _ _ _ hj2 with ⟨hne, hji⟩ |
              ⟨heq, j1, hj1, hje⟩
            · exact noCancelled i j2 hji
            · subst hje
              simp [startJob]
          · intro p hp
            obtain ⟨j2, hj2, hq2⟩ := queuedReady p (by simp [hp])
            have hne : p.1 ≠ id := by
              intro he
              have hidk : id ∉ rest.map Prod.fst := by
                have h2 := (List.nodup_append.mp hqn).2.1
                exact (List.nodup_cons.mp h2).1
              exact hidk (he ▸ List.mem_map.mpr ⟨p, hp, rfl⟩)
            refine ⟨j2, ?_, hq2⟩
            rw [jget_jupdate_ne _ _ _ _ hne]
            exact hj2
          · dsimp only
            have hd0 : deqd0 = fin0 := by
              have h2 := deqdFin
              dsimp only at h2
              simpa [workerIds] using h2
            rw [hd0]
            simp [workerIds]
          · intro i hi j2 hj2
            have hne : i ≠ id := by
              intro he
              have hdisj := (List.nodup_append.mp hqn).2.2
              have hide : id ∈ deqd0 := by
                have hd0 : deqd0 = fin0 := by
                  have h2 := deqdFin
                  dsimp only at h2
                  simpa [workerIds] using h2
                rw [hd0]
                exact he ▸ hi
              exact hdisj hide (by simp)
            rcases jget_jupdate_some _ _ _ _ _ hj2 with ⟨-, hji⟩ |
              ⟨heq, j1, hj1, hje⟩
            · exact finDone i hi j2 hji
            · exact absurd heq hne

theorem invNC_finish (s : SysState) (hG : InvG s) (h : InvNC s) :
    InvNC (applyFinish s) := by
  obtain ⟨jobs0, queue0, worker0, nextId0, now0, enq0, deqd0, fin0⟩ := s
  obtain ⟨jobsFresh, jobsNodup, queueLt, enqLt, enqNodup, fifo, procOwner,
    runJob, runDeqd⟩ := hG
  obtain ⟨noCancelled, queuedReady, deqdFin, finDone⟩ := h
  cases worker0 with
  | idle => exact ⟨noCancelled, queuedReady, deqdFin, finDone⟩
  | running id task =>
      have happ : applyFinish ⟨jobs0, queue0, WorkerPhase.running id task,
          nextId0, now0, enq0, deqd0, fin0⟩ =
          ⟨jupdate (finishJob now0 task) jobs0 id, queue0, WorkerPhase.idle,
           nextId0, now0, enq0, deqd0, fin0 ++ [id]⟩ := rfl
      rw [happ]
      have hidd : id ∈ deqd0 := runDeqd id task rfl
      have hqdisj : List.Disjoint deqd0 (queue0.map Prod.fst) := by
        have h2 := enqNodup
        rw [fifo] at h2
        exact (List.nodup_append.mp h2).2.2
      have hdnodup : deqd0.Nodup := by
        have h2 := enqNodup
        rw [fifo] at h2
        exact (List.nodup_append.mp h2).1
      refine ⟨?_, ?_, ?_, ?_⟩
      · intro i j hj
        rcases jget_jupdate_some _ _ _ _ _ hj with ⟨-, hji⟩ |
          ⟨heq, j1, hj1, hje⟩
        · exact noCancelled i j hji
        · subst hje
          rcases finishJob_status now0 task j1 with hs | hs <;> simp [hs]
      · intro p hp
        obtain ⟨j2, hj2, hq2⟩ := queuedReady p hp
        have hne : p.1 ≠ id := by
          intro he
          exact hqdisj hidd (he ▸ List.mem_map.mpr ⟨p, hp, rfl⟩)
        refine ⟨j2, ?_, hq2⟩
        rw [jget_jupdate_ne _ _ _ _ hne]
        exact hj2
      · dsimp only
        have h2 := deqdFin
        dsimp only at h2
        rw [h2]
        simp [workerIds]
      · intro i hi j hj
        rcases List.mem_append.mp hi with hi | hi
        · have hne : i ≠ id := by
            intro he
            have hd0 : deqd0 = fin0 ++ [id] := by
              have h2 := deqdFin
              dsimp only at h2
              simpa [workerIds] using h2
            rw [hd0] at hdnodup
            have hdisj2 := (List.nodup_append.mp hdnodup).2.2
            exact hdisj2 (he ▸ hi) (by simp)
          rcases jget_jupdate_some _ _ _ _ _ hj with ⟨-, hji⟩ |
            ⟨heq, j1, hj1, hje⟩
          · exact finDone i hi j hji
          · exact absurd heq hne
        · simp at hi
          subst hi
          rcases jget_jupdate_some _ _ _ _ _ hj with ⟨hne, hji⟩ |
            ⟨heq, j1, hj1, hje⟩
          · exact absurd rfl hne
          · subst hje
            exact finishJob_status now0 task j1

theorem invNC_progress (s : SysState) (pid : Nat) (p : ℚ) (cp tp : Option Int)
    (m : Option String) (h : InvNC s) :
    InvNC (applyAction s (JobAction.progress pid p cp tp m)) := by
  obtain ⟨noCancelled, queuedReady, deqdFin, finDone⟩ := h
  show InvNC { s with jobs := update_progress s.jobs pid p cp tp m }
  cases hj : jget s.jobs pid with
  | none =>
      rw [update_progress_of_jget_none _ _ _ _ _ _ hj]
      exact ⟨noCancelled, queuedReady, deqdFin, finDone⟩
  | some j0 =>
      rw [update_progress_of_jget_some _ _ _ _ _ _ _ hj]
      refine ⟨?_, ?_, deqdFin, ?_⟩
      · intro i j hj2
        rcases jget_jupdate_some _ _ _ _ _ hj2 with ⟨-, hji⟩ |
          ⟨heq, j1, hj1, hje⟩
        · exact noCancelled i j hji
        · subst hje
          rw [Ne, (progressFields_frames p cp tp m j1).1]
          exact noCancelled _ j1 hj1
      · intro p2 hp2
        obtain ⟨j2, hj2, hq2⟩ := queuedReady p2 hp2
        by_cases hne : p2.1 = pid
        · refine ⟨progressFields p cp tp m j0, ?_, ?_⟩
          · rw [hne, jget_jupdate_self, hj]
            rfl
          · rw [(progressFields_frames p cp tp m j0).1]
            rw [hne, hj] at hj2
            injection hj2 with he
            rw [he]
            exact hq2
        · refine ⟨j2, ?_, hq2⟩
          rw [jget_jupdate_ne _ _ _ _ hne]
          exact hj2
      · intro i hi j hj2
        rcases jget_jupdate_some _ _ _ _ _ hj2 with ⟨-, hji⟩ |
          ⟨heq, j1, hj1, hje⟩
        · exact finDone i hi j hji
        · subst hje
          have hf := finDone i hi j1 (by rw [heq]; exact hj1)
          rcases hf with hs | hs
          · left
            rw [(progressFields_frames p cp tp m j1).1]
            exact hs
          · right
            rw [(progressFields_frames p cp tp m j1).1]
            exact hs

theorem invNC_cleanup (s : SysState) (hG : InvG s) (h : InvNC s) :
    InvNC (applyAction s JobAction.cleanup) := by
  obtain ⟨noCancelled, queuedReady, deqdFin, finDone⟩ := h
  cases hw : s.worker with
  | running id task =>
      have happ : applyAction s JobAction.cleanup = s := by
        unfold applyAction
        rw [hw]
      rw [happ]
      exact ⟨noCancelled, queuedReady, deqdFin, finDone⟩
  | idle =>
      have happ : applyAction s JobAction.cleanup =
          { s with jobs := cleanup_old_jobs s.jobs s.now defaultCleanupAge } := by
        unfold applyAction
        rw [hw]
      rw [happ]
      refine ⟨?_, ?_, deqdFin, ?_⟩
      · intro i j hj
        exact noCancelled i j (jget_cleanup_some _ _ _ _ _ hG.jobsNodup hj)
      · intro p hp
        obtain ⟨j, hj, hq⟩ := queuedReady p hp
        refine ⟨j, ?_, hq⟩
        refine jget_cleanup_of_keep _ _ _ _ _ hG.jobsNodup hj ?_
        simp [removable, isTerminal, hq]
      · intro i hi j hj
        exact finDone i hi j (jget_cleanup_some _ _ _ _ _ hG.jobsNodup hj)

theorem invNC_step (s : SysState) (a : JobAction) (hG : InvG s) (h : InvNC s)
    (hnc : a.isCancel = false) : InvNC (applyAction s a) := by
  cases a with
  | submit pid fn fmt task => exact invNC_submit s fn fmt task hG h
  | deq => exact invNC_deq s hG h
  | finish => exact invNC_finish s hG h
  | cancel cid => simp [JobAction.isCancel] at hnc
  | progress pid p cp tp m => exact invNC_progress s pid p cp tp m h
  | cleanup => exact invNC_cleanup s hG h
  | tick => exact ⟨h.noCancelled, h.queuedReady, h.deqdFin, h.finDone⟩

theorem invNC_run (tr : List JobAction) (s : SysState) (hG : InvG s)
    (h : InvNC s) (hc : cancelFree tr = true) : InvNC (runTrace s tr) := by
  induction tr generalizing s with
  | nil => exact h
  | cons a tr ih =>
      simp only [cancelFree, List.all_cons, Bool.and_eq_true,
        Bool.not_eq_true'] at hc
      exact ih (applyAction s a) (invG_step s a hG)
        (invNC_step s a hG h hc.1) hc.2

theorem invNC_init : InvNC initState := by
  refine ⟨?_, ?_, rfl, ?_⟩
  · intro i j hj
    exact Option.noConfusion hj
  · intro p hp
    simp [initState] at hp
  · intro i hi
    simp [initState] at hi

/-- Claim C8: in every execution at most one job has status `processing` at
any instant, and jobs are dequeued strictly in enqueue (FIFO) order
(`enq = deqd ++ queue`).  In executions without cancellation requests the
dequeue history additionally splits as `deqd = fin ++ current job`, so
whenever the worker is idle — in particular at the instant the next job is
dequeued — every previously dequeued job has already been terminalized; the
worker-terminalized jobs form a prefix of the enqueue order (terminal states
are reached in enqueue order), and each of them is `completed` or `failed`. -/
theorem worker_serializes (tr : List JobAction) :
    (∀ i1 j1 i2 j2, jget (runTrace initState tr).jobs i1 = some j1 →
       jget (runTrace initState tr).jobs i2 = some j2 →
       j1.status = JobStatus.processing → j2.status = JobStatus.processing →
       i1 = i2)
  ∧ (runTrace initState tr).enq =
      (runTrace initState tr).deqd ++
        (runTrace initState tr).queue.map Prod.fst
  ∧ (cancelFree tr = true →
       (runTrace initState tr).deqd =
         (runTrace initState tr).fin ++
           workerIds (runTrace initState tr).worker
     ∧ ((runTrace initState tr).worker = WorkerPhase.idle →
         (runTrace initState tr).deqd = (runTrace initState tr).fin)
     ∧ (∃ l, (runTrace initState tr).fin ++ l = (runTrace initState tr).enq)
     ∧ (∀ i ∈ (runTrace initState tr).fin, ∀ j,
          jget (runTrace initState tr).jobs i = some j →
          (j.status = JobStatus.completed ∨ j.status = JobStatus.failed))) := by
  have hG := invG_run tr initState invG_init
  refine ⟨?_, hG.fifo, ?_⟩
  · intro i1 j1 i2 j2 h1 h2 hp1 hp2
    obtain ⟨t1, ht1⟩ := hG.procOwner i1 j1 h1 hp1
    obtain ⟨t2, ht2⟩ := hG.procOwner i2 j2 h2 hp2
    rw [ht1] at ht2
    injection ht2
  · intro hc
    have hNC := invNC_run tr initState invG_init invNC_init hc
    refine ⟨hNC.deqdFin, ?_, ?_, hNC.finDone⟩
    · intro hidle
      have h2 := hNC.deqdFin
      rw [hidle] at h2
      simpa [workerIds] using h2
    · refine ⟨workerIds (runTrace initState tr).worker ++
        (runTrace initState tr).queue.map Prod.fst, ?_⟩
      rw [← List.append_assoc, ← hNC.deqdFin]
      exact hG.fifo.symm

/-- Witness for C8 on the concrete cancellation-free trace `c8Trace` (two
jobs submitted and drained): the worker goes idle, both jobs are
worker-terminalized, and the terminalization order equals the enqueue order
`[0, 1]`. -/
theorem worker_serializes_witness :
    cancelFree c8Trace = true
  ∧ (runTrace initState c8Trace).deqd = (runTrace initState c8Trace).fin
  ∧ (runTrace initState c8Trace).fin = [0, 1]
  ∧ (runTrace initState c8Trace).enq = [0, 1] := by
  refine ⟨by decide, ?_, by decide, by decide⟩
  have h := worker_serializes c8Trace
  exact (h.2.2 (by decide)).2.1 (by decide)

-- ## Heartbeat monitor lemmas

theorem applyHB_stopped (s : HBState) (a : HBAction) (hf : s.flag = false)
    (hp : s.phase ≠ HBPhase.sendPending) :
    (applyHB s a).sends = s.sends ∧ (applyHB s a).flag = false ∧
    (applyHB s a).phase ≠ HBPhase.sendPending := by
  obtain ⟨flag0, phase0, elapsed0, callDone0, sends0⟩ := s
  simp only at hf hp
  subst hf
  cases a with
  | tLoopCheck =>
      cases phase0 with
      | loopCheck => exact ⟨rfl, rfl, fun hcon => HBPhase.noConfusion hcon⟩
      | sleeping => exact ⟨rfl, rfl, fun hcon => HBPhase.noConfusion hcon⟩
      | innerCheck => exact ⟨rfl, rfl, fun hcon => HBPhase.noConfusion hcon⟩
      | sendPending => exact absurd rfl hp
      | exited => exact ⟨rfl, rfl, fun hcon => HBPhase.noConfusion hcon⟩
  | tWake =>
      cases phase0 with
      | loopCheck => exact ⟨rfl, rfl, fun hcon => HBPhase.noConfusion hcon⟩
      | sleeping => exact ⟨rfl, rfl, fun hcon => HBPhase.noConfusion hcon⟩
      | innerCheck => exact ⟨rfl, rfl, fun hcon => HBPhase.noConfusion hcon⟩
      | sendPending => exact absurd rfl hp
      | exited => exact ⟨rfl, rfl, fun hcon => HBPhase.noConfusion hcon⟩
  | tInner =>
      cases phase0 with
      | loopCheck => exact ⟨rfl, rfl, fun hcon => HBPhase.noConfusion hcon⟩
      | sleeping => exact ⟨rfl, rfl, fun hcon => HBPhase.noConfusion hcon⟩
      | innerCheck => exact ⟨rfl, rfl, fun hcon => HBPhase.noConfusion hcon⟩
      | sendPending => exact absurd rfl hp
      | exited => exact ⟨rfl, rfl, fun hcon => HBPhase.noConfusion hcon⟩
  | tSend =>
      cases phase0 with
      | loopCheck => exact ⟨rfl, rfl, fun hcon => HBPhase.noConfusion hcon⟩
      | sleeping => exact ⟨rfl, rfl, fun hcon => HBPhase.noConfusion hcon⟩
      | innerCheck => exact ⟨rfl, rfl, fun hcon => HBPhase.noConfusion hcon⟩
      | sendPending => exact absurd rfl hp
      | exited => exact ⟨rfl, rfl, fun hcon => HBPhase.noConfusion hcon⟩
  | mReturn b =>
      cases callDone0 with
      | false => exact ⟨rfl, rfl, hp⟩
      | true => exact ⟨rfl, rfl, hp⟩

theorem runHB_stopped (tr : List HBAction) (s : HBState) (hf : s.flag = false)
    (hp : s.phase ≠ HBPhase.sendPending) :
    (runHB s tr).sends = s.sends := by
  induction tr generalizing s with
  | nil => rfl
  | cons a tr ih =>
      obtain ⟨h1, h2, h3⟩ := applyHB_stopped s a hf hp
      calc (runHB (applyHB s a) tr).sends
          = (applyHB s a).sends := ih (applyHB s a) h2 h3
        _ = s.sends := h1

theorem applyHB_wf (s : HBState) (a : HBAction) (h : hbWF s) :
    hbWF (applyHB s a) := by
  obtain ⟨⟨n, hn⟩, hpe, hsends⟩ := h
  obtain ⟨flag0, phase0, elapsed0, callDone0, sends0⟩ := s
  simp only at hn hpe hsends
  subst hn
  have hnoc : ∀ q : Prop, HBPhase.loopCheck = HBPhase.sendPending → q :=
    fun q hx => HBPhase.noConfusion hx
  cases a with
  | tLoopCheck =>
      cases phase0 with
      | loopCheck =>
          cases flag0 with
          | true => exact ⟨⟨n, rfl⟩, fun hph => HBPhase.noConfusion hph, hsends⟩
          | false => exact ⟨⟨n, rfl⟩, fun hph => HBPhase.noConfusion hph, hsends⟩
      | sleeping => exact ⟨⟨n, rfl⟩, fun hph => HBPhase.noConfusion hph, hsends⟩
      | innerCheck => exact ⟨⟨n, rfl⟩, fun hph => HBPhase.noConfusion hph, hsends⟩
      | sendPending => exact ⟨⟨n, rfl⟩, fun _ => hpe rfl, hsends⟩
      | exited => exact ⟨⟨n, rfl⟩, fun hph => HBPhase.noConfusion hph, hsends⟩
  | tWake =>
      cases phase0 with
      | loopCheck => exact ⟨⟨n, rfl⟩, fun hph => HBPhase.noConfusion hph, hsends⟩
      | sleeping => exact ⟨⟨n, rfl⟩, fun hph => HBPhase.noConfusion hph, hsends⟩
      | innerCheck => exact ⟨⟨n, rfl⟩, fun hph => HBPhase.noConfusion hph, hsends⟩
      | sendPending => exact ⟨⟨n, rfl⟩, fun _ => hpe rfl, hsends⟩
      | exited => exact ⟨⟨n, rfl⟩, fun hph => HBPhase.noConfusion hph, hsends⟩
  | tInner =>
      cases phase0 with
      | loopCheck => exact ⟨⟨n, rfl⟩, fun hph => HBPhase.noConfusion hph, hsends⟩
      | sleeping => exact ⟨⟨n, rfl⟩, fun hph => HBPhase.noConfusion hph, hsends⟩
      | innerCheck =>
          cases flag0 with
          | true =>
              refine ⟨⟨n + 1, by show 30 * n + 30 = 30 * (n + 1); ring⟩,
                fun _ => by show 30 * n + 30 ≠ 0; omega, hsends⟩
          | false => exact ⟨⟨n, rfl⟩, fun hph => HBPhase.noConfusion hph, hsends⟩
      | sendPending => exact ⟨⟨n, rfl⟩, fun _ => hpe rfl, hsends⟩
      | exited => exact ⟨⟨n, rfl⟩, fun hph => HBPhase.noConfusion hph, hsends⟩
  | tSend =>
      cases phase0 with
      | loopCheck => exact ⟨⟨n, rfl⟩, fun hph => HBPhase.noConfusion hph, hsends⟩
      | sleeping => exact ⟨⟨n, rfl⟩, fun hph => HBPhase.noConfusion hph, hsends⟩
      | innerCheck => exact ⟨⟨n, rfl⟩, fun hph => HBPhase.noConfusion hph, hsends⟩
      | sendPending =>
          refine ⟨⟨n, rfl⟩, fun hph => HBPhase.noConfusion hph, ?_⟩
          intro e he
          rcases List.mem_append.mp he with he | he
          · exact hsends e he
          · simp at he
            subst he
            refine ⟨by norm_num, rfl, rfl, n, ?_, rfl⟩
            intro hn0
            exact hpe rfl (by rw [hn0])
      | exited => exact ⟨⟨n, rfl⟩, fun hph => HBPhase.noConfusion hph, hsends⟩
  | mReturn b =>
      cases callDone0 with
      | false => exact ⟨⟨n, rfl⟩, hpe, hsends⟩
      | true => exact ⟨⟨n, rfl⟩, hpe, hsends⟩

theorem runHB_wf (tr : List HBAction) (s : HBState) (h : hbWF s) :
    hbWF (runHB s tr) := by
  induction tr generalizing s with
  | nil => exact h
  | cons a tr ih => exact ih (applyHB s a) (applyHB_wf s a h)

theorem hbWF_init : hbWF initHB := by
  refine ⟨⟨0, rfl⟩, ?_, ?_⟩
  · intro h
    exact HBPhase.noConfusion h
  · intro e he
    simp [initHB] at he

/-- Claim C9 (refuting interleaving): the heartbeat thread is signalled, not
joined.  In the concrete interleaving below the thread wakes from its 30s
sleep and passes the inner `is_set()` check while the flag is still set; the
blocking call then returns and the `finally` block clears the flag; the
thread's already-decided `run_coroutine_threadsafe` send still executes.  The
run ends with `callDone = true` and a logged reporter invocation whose
`afterReturn` field is `true` — the reporter was invoked after the monitored
call had returned, contradicting the claim that it never is and that the
monitor never outlives the call. -/
theorem heartbeat_fires_after_return :
    (runHB initHB [HBAction.tLoopCheck, HBAction.tWake, HBAction.tInner,
        HBAction.mReturn false, HBAction.tSend]).callDone = true
  ∧ (runHB initHB [HBAction.tLoopCheck, HBAction.tWake, HBAction.tInner,
        HBAction.mReturn false, HBAction.tSend]).sends =
      [{ afterReturn := true, frac := 1/5, cur := 0, tot := 0,
                              msg := hbMsg 30 }] := by
  constructor
  · rfl
  · show [({ afterReturn := true, frac := 1/5, cur := 0, tot := 0,
                                  msg := hbMsg 30 } : HBSend)] = _
    rfl

/-- Claim C9 (amended): the heartbeat flag is set immediately before the
blocking call (`initHB`) and is cleared unconditionally by the `finally`
block when the call returns, whether it succeeded or raised; every reporter
invocation the heartbeat thread ever makes carries the same coarse fraction
0.20, unit counts (0, 0), and an elapsed-time message for a positive multiple
of the 30-second interval; and once the flag is down and the thread is not
already past its inner check, the thread never invokes the reporter again. -/
theorem heartbeat_scoped (tr : List HBAction) (s : HBState) (b : Bool) :
    (s.callDone = false →
       (applyHB s (HBAction.mReturn b)).flag = false ∧
       (applyHB s (HBAction.mReturn b)).callDone = true)
  ∧ (∀ e ∈ (runHB initHB tr).sends, e.frac = 1/5 ∧ e.cur = 0 ∧ e.tot = 0 ∧
       ∃ k : Nat, k ≠ 0 ∧ e.msg = hbMsg (30 * k))
  ∧ (s.flag = false → s.phase ≠ HBPhase.sendPending →
       (runHB s tr).sends = s.sends) := by
  refine ⟨?_, ?_, ?_⟩
  · intro hcd
    unfold applyHB
    rw [hcd]
    exact ⟨rfl, rfl⟩
  · exact (runHB_wf tr initHB hbWF_init).2.2
  · intro hf hp
    exact runHB_stopped tr s hf hp

/-- Witness for C9's amended theorem at a concrete stopped state: the
`finally` clear fires even when the call raised (`callFailed = true`), and a
thread that still has wake-ups ahead of it performs no further sends once it
observes the cleared flag. -/
theorem heartbeat_scoped_witness :
    (({ flag := false, phase := HBPhase.loopCheck, elapsed := 30,
          callDone := false, sends := [] } : HBState).callDone = false)
  ∧ (applyHB { flag := false, phase := HBPhase.loopCheck, elapsed := 30,
                 callDone := false, sends := [] }
       (HBAction.mReturn true)).flag = false
  ∧ (runHB { flag := false, phase := HBPhase.loopCheck, elapsed := 30,
               callDone := false, sends := [] }
      [HBAction.tLoopCheck, HBAction.tWake, HBAction.tInner,
       HBAction.tSend]).sends = [] := by
  have h := heartbeat_scoped
    [HBAction.tLoopCheck, HBAction.tWake, HBAction.tInner, HBAction.tSend]
    { flag := false, phase := HBPhase.loopCheck, elapsed := 30,
      callDone := false, sends := [] } true
  refine ⟨rfl, ?_, ?_⟩
  · exact (h.1 rfl).1
  · exact h.2.2 rfl (fun hcon => HBPhase.noConfusion hcon)
